import Mathlib

/-!
Verification development for the BigQuery MCP server (`src/index.ts`).

Strings are modelled as `List Char`.  JavaScript regular-expression
character classes are modelled over ASCII: `\w` is `[A-Za-z0-9_]`,
`\s` is the ASCII whitespace characters, and the `i` flag lowers
ASCII letters.  All SQL texts the claims quantify over fall in this
fragment.  JavaScript numbers are modelled as rationals; the values
appearing in each claim are exactly representable.

The file has two parts: first all definitions (translated from the
source), then the lemmas and claim theorems.
-/

/-- ASCII lower-casing, as used by the regex `i` flag on ASCII input. -/
def lowerA (c : Char) : Char :=
  if 'A' ≤ c ∧ c ≤ 'Z' then Char.ofNat (c.toNat + 32) else c

/-- Case-insensitive character comparison (regex `i` flag). -/
def charCI (a b : Char) : Bool := lowerA a = lowerA b

/-- ASCII upper-casing, modelling `String.prototype.toUpperCase` on ASCII. -/
def upperA (c : Char) : Char :=
  if 'a' ≤ c ∧ c ≤ 'z' then Char.ofNat (c.toNat - 32) else c

/-- JavaScript regex `\w`: ASCII letters, digits and underscore. -/
def isWordChar (c : Char) : Bool :=
  ('a' ≤ c ∧ c ≤ 'z') ∨ ('A' ≤ c ∧ c ≤ 'Z') ∨ ('0' ≤ c ∧ c ≤ '9') ∨ c = '_'

/-- JavaScript regex `\s` restricted to ASCII whitespace. -/
def isWsChar (c : Char) : Bool :=
  c = ' ' ∨ c = '\t' ∨ c = '\n' ∨ c = '\r' ∨ c = Char.ofNat 11 ∨ c = Char.ofNat 12

/-- Case-insensitive prefix stripping: if `s` starts with `pat` up to
ASCII case, return the remainder. -/
def stripCI : List Char → List Char → Option (List Char)
  | [], s => some s
  | _ :: _, [] => none
  | p :: ps, c :: cs => if charCI p c then stripCI ps cs else none

/-- Case-insensitive equality of two character lists. -/
def eqCI : List Char → List Char → Bool
  | [], [] => true
  | a :: as, b :: bs => charCI a b && eqCI as bs
  | _, _ => false

/-- Exact prefix test on character lists. -/
def listStartsWith : List Char → List Char → Bool
  | [], _ => true
  | _ :: _, [] => false
  | a :: as, b :: bs => a = b && listStartsWith as bs

/-- Exact substring test (`String.prototype.includes`). -/
def listContainsSub (needle : List Char) : List Char → Bool
  | [] => listStartsWith needle []
  | c :: cs => listStartsWith needle (c :: cs) || listContainsSub needle cs

/-! ### The read-only SQL guard

Source (`index.ts` line 334):
`const forbiddenPattern = /\b(INSERT|UPDATE|DELETE|CREATE|DROP|ALTER|MERGE|TRUNCATE|GRANT|REVOKE|EXECUTE|BEGIN|COMMIT|ROLLBACK)\b/i;`
`if (forbiddenPattern.test(sql)) { throw new Error('Only READ operations are allowed'); }`
-/

/-- The fourteen forbidden DML/DDL/DCL keywords of `forbiddenPattern`. -/
def forbiddenKeywords : List (List Char) :=
  ["INSERT".data, "UPDATE".data, "DELETE".data, "CREATE".data, "DROP".data,
   "ALTER".data, "MERGE".data, "TRUNCATE".data, "GRANT".data, "REVOKE".data,
   "EXECUTE".data, "BEGIN".data, "COMMIT".data, "ROLLBACK".data]

/-- Does some forbidden keyword match at the head of `s`, with a word
boundary after it?  (All keywords start and end with letters, so the
`\b` conditions reduce to the neighbouring characters being non-word.) -/
def kwHere (s : List Char) : Bool :=
  forbiddenKeywords.any fun kw =>
    match stripCI kw s with
    | some r =>
      match r.head? with
      | none => true
      | some c => !isWordChar c
    | none => false

/-- Scan of `forbiddenPattern.test`: try every position whose preceding
character is not a word character (the leading `\b`). `prevWord` is
whether the previous character was a word character (false at the start). -/
def forbidScan (prevWord : Bool) : List Char → Bool
  | [] => false
  | c :: cs => (!prevWord && kwHere (c :: cs)) || forbidScan (isWordChar c) cs

/-- `forbiddenPattern.test sql` for the read-only guard. -/
def containsForbidden (sql : List Char) : Bool := forbidScan false sql

/-- Specification-side statement of "contains a forbidden keyword as a
standalone word, in any letter case": some forbidden keyword occurs
case-insensitively with no word character adjacent on either side. -/
def SQLHasForbiddenWord (sql : List Char) : Prop :=
  ∃ pre w suf kw, kw ∈ forbiddenKeywords ∧ sql = pre ++ w ++ suf ∧
    eqCI w kw = true ∧
    (∀ c, pre.getLast? = some c → isWordChar c = false) ∧
    (∀ c, suf.head? = some c → isWordChar c = false)

/-! ### INFORMATION_SCHEMA table-path qualification

Source (`index.ts` lines 159-168):
```
function qualifyTablePath(sql: string, projectId: string): string {
  const unqualifiedPattern = /FROM\s+(?:(\w+)\.)?INFORMATION_SCHEMA\.TABLES/gi;
  return sql.replace(unqualifiedPattern, (match, dataset) => {
    if (dataset) {
      return `FROM \x60${projectId}.${dataset}.INFORMATION_SCHEMA.TABLES\x60`;
    }
    throw new Error("Dataset must be specified when querying INFORMATION_SCHEMA (e.g. dataset.INFORMATION_SCHEMA.TABLES)");
  });
}
```
`matchIS` decides whether the regex matches at the head of `s`.
Because `\w+` is greedy and `INFORMATION_SCHEMA.TABLES` begins with a
word character, the regex matches at a position iff: `FROM` (any case),
one or more `\s`, a maximal nonempty `\w+` run `R`, a literal `.`, and
then either the literal `INFORMATION_SCHEMA.TABLES` (dataset = `R`) or,
failing that, `R` itself case-equals `INFORMATION_SCHEMA` and the text
after the dot starts with `TABLES` (no dataset captured). -/

def litIS : List Char := "INFORMATION_SCHEMA".data

def litTables : List Char := "TABLES".data

def litISTables : List Char := "INFORMATION_SCHEMA.TABLES".data

/-- One attempted match of `unqualifiedPattern` at the head of `s`:
returns the captured dataset (if any) and the text after the match. -/
def matchIS (s : List Char) : Option (Option (List Char) × List Char) :=
  match stripCI "FROM".data s with
  | none => none
  | some s1 =>
    let w := s1.takeWhile isWsChar
    if w.length = 0 then none
    else
      let s2 := s1.drop w.length
      let R := s2.takeWhile isWordChar
      if R.length = 0 then none
      else
        match s2.drop R.length with
        | '.' :: rest0 =>
          match stripCI litISTables rest0 with
          | some rest => some (some R, rest)
          | none =>
            if eqCI R litIS then
              match stripCI litTables rest0 with
              | some rest => some (none, rest)
              | none => none
            else none
        | _ => none

/-- The replacement text produced for a match that captured dataset `ds`. -/
def replIS (proj ds : List Char) : List Char :=
  "FROM `".data ++ proj ++ ".".data ++ ds ++ ".INFORMATION_SCHEMA.TABLES`".data

/-- The usage-error message thrown when a match has no dataset qualifier. -/
def dsErrMsg : List Char :=
  "Dataset must be specified when querying INFORMATION_SCHEMA (e.g. dataset.INFORMATION_SCHEMA.TABLES)".data

/-- Global replace of `sql.replace(unqualifiedPattern, ...)`: scan left to
right; at a match with a dataset emit the replacement and continue after
the matched text; at a match without a dataset the callback throws.
`fuel` is structural recursion fuel; callers supply `fuel ≥ length` and
`qualifyAux_stable` shows the value is then independent of the fuel. -/
def qualifyAux (proj : List Char) : Nat → List Char → Except (List Char) (List Char)
  | _, [] => .ok []
  | 0, l => .ok l
  | fuel+1, c :: cs =>
    match matchIS (c :: cs) with
    | some (some ds, rest) => (qualifyAux proj fuel rest).map (fun r => replIS proj ds ++ r)
    | some (none, _) => .error dsErrMsg
    | none => (qualifyAux proj fuel cs).map (fun r => c :: r)

/-- `qualifyTablePath(sql, projectId)`: `.ok` is the rewritten SQL, `.error`
is the message of the thrown usage error. -/
def qualifyTablePath (proj sql : List Char) : Except (List Char) (List Char) :=
  qualifyAux proj sql.length sql

/-- `sql.toUpperCase().includes('INFORMATION_SCHEMA')` (line 341). -/
def containsInfoSchema (sql : List Char) : Bool :=
  listContainsSub litIS (sql.map upperA)

/-- Characters allowed in a project id by `validateConfig`
(`/^[a-z0-9-]+$/`, line 65). -/
def isProjChar (c : Char) : Bool :=
  ('a' ≤ c ∧ c ≤ 'z') ∨ ('0' ≤ c ∧ c ≤ '9') ∨ c = '-'

/-! ### The dispatcher outcome and the `query` branch

Source (`index.ts` lines 328-363).  The forbidden-keyword check throws
before the `try` block; inside the `try`, a qualification error or a
warehouse error is caught and returned as an error-flagged tool result.
The warehouse client (`bigquery.query`) is an external collaborator,
modelled as a function from the final SQL text to either the serialized
rows or an error message. -/

/-- Outcome of one dispatcher call: an exception raised past the
dispatcher, or an ordinary tool result with its `isError` flag. -/
inductive ToolOutcome where
  | thrown (msg : List Char)
  | result (isError : Bool) (text : List Char)
deriving DecidableEq

/-- Message of the read-only policy error (line 336). -/
def onlyReadMsg : List Char := "Only READ operations are allowed".data

/-- Prefix of the caught-error text in the `query` branch (line 358). -/
def errPrefix : List Char := "Error executing query: ".data

/-- The `query` tool branch of the `CallToolRequestSchema` handler. -/
def handleQuery (proj sql : List Char)
    (wh : List Char → Except (List Char) (List Char)) : ToolOutcome :=
  if containsForbidden sql then .thrown onlyReadMsg
  else
    match (if containsInfoSchema sql then qualifyTablePath proj sql else .ok sql) with
    | .error m => .result true (errPrefix ++ m)
    | .ok s =>
      match wh s with
      | .error m => .result true (errPrefix ++ m)
      | .ok rowsText => .result false rowsText

/-- The SQL text the handler would send to the warehouse (the
possibly-rewritten statement), when it reaches the warehouse at all. -/
def effectiveSql (proj sql : List Char) : Except (List Char) (List Char) :=
  if containsInfoSchema sql then qualifyTablePath proj sql else .ok sql

/-- Scan used in the idempotence proof: no character of the list that
is case-insensitively `F` is followed by a character that is
case-insensitively `R`, and the last character is not `F`-like. -/
def okFR : List Char → Bool
  | [] => true
  | [c] => !(charCI 'F' c)
  | c :: c' :: rest => (!(charCI 'F' c) || !(charCI 'R' c')) && okFR (c' :: rest)

/-! ### The Tabular Summarizer (`analyze_results`, lines 477-674)

Row values are scalars per the data model; JavaScript numbers are
modelled as rationals plus an explicit NaN.  `vUndefined` is the value of a
missing property; `vOther` stands for nested objects/arrays. -/

/-- A scalar cell value of a tabular result. -/
inductive Value where
  | vNum (q : ℚ)
  | vNaN
  | vStr (s : List Char)
  | vBool (b : Bool)
  | vNull
  | vUndefined
  | vOther
deriving DecidableEq

/-- A row record: column names to values, in insertion order. -/
abbrev Row : Type := List (List Char × Value)

/-- `row[col]`: property access, `undefined` when the key is missing. -/
def getProp (r : Row) (col : List Char) : Value :=
  match r.find? (fun kv => kv.1 = col) with
  | some kv => kv.2
  | none => .vUndefined

/-- Column type tags, inferred by `typeof` from the first row's value
(lines 499-515).  `Date` values cannot arise from parsed JSON and are
omitted; `other` covers `undefined` and object values. -/
inductive TypeTag where
  | numeric
  | tString
  | tBool
  | unknown
  | other
deriving DecidableEq

def typeTag : Value → TypeTag
  | .vNum _ => .numeric
  | .vNaN => .numeric
  | .vStr _ => .tString
  | .vBool _ => .tBool
  | .vNull => .unknown
  | .vUndefined => .other
  | .vOther => .other

/-- `Object.keys(data[0])` (line 494). -/
def columnsOf : List Row → List (List Char)
  | [] => []
  | r :: _ => r.map Prod.fst

/-- The numeric columns in column order (lines 499-515). -/
def numericColumnsOf : List Row → List (List Char)
  | [] => []
  | r :: _ => (r.map Prod.fst).filter (fun c => typeTag (getProp r c) = .numeric)

/-- Digit-run parser for `numParse`. -/
def parseDigitsAux (acc : Nat) : List Char → Option Nat
  | [] => some acc
  | c :: cs =>
    if '0' ≤ c ∧ c ≤ '9' then parseDigitsAux (acc * 10 + (c.toNat - 48)) cs else none

/-- A model of `Number(string)` for plain decimal literals: trimmed,
empty string is 0, optional sign, digits with at most one point.
Exponents, hex and `Infinity` are outside the model; the claims never
exercise string coercion (their hypotheses restrict numeric columns to
numbers, null and NaN). -/
def numParse (s0 : List Char) : Option ℚ :=
  let s := ((s0.dropWhile isWsChar).reverse.dropWhile isWsChar).reverse
  if s = [] then some 0
  else
    let signed : ℚ × List Char :=
      match s with
      | '-' :: t => (-1, t)
      | '+' :: t => (1, t)
      | t => (1, t)
    let ip := signed.2.takeWhile (fun c => '0' ≤ c ∧ c ≤ '9')
    match signed.2.drop ip.length with
    | [] =>
      if ip = [] then none
      else (parseDigitsAux 0 ip).map (fun n => signed.1 * n)
    | '.' :: fp =>
      if fp.all (fun c => '0' ≤ c ∧ c ≤ '9') ∧ (ip ≠ [] ∨ fp ≠ []) then
        match parseDigitsAux 0 ip, parseDigitsAux 0 fp with
        | some a, some b => some (signed.1 * ((a : ℚ) + (b : ℚ) / (10 ^ fp.length : ℚ)))
        | _, _ => none
      else none
    | _ => none

/-- `isNaN(v)`: ToNumber coercion followed by the NaN test.
`Number(null) = 0` and booleans coerce to 0/1, so those are not NaN;
missing properties (`undefined`) are.  Object values are modelled as
NaN (a one-element numeric array would coerce differently in JS; no
claim reaches that case). -/
def isNaNJS : Value → Bool
  | .vNum _ => false
  | .vNaN => true
  | .vStr s => (numParse s).isNone
  | .vBool _ => false
  | .vNull => false
  | .vUndefined => true
  | .vOther => true

/-- Numbers, null and NaN: the value kinds of a well-typed numeric
column, which the statistics theorems quantify over. -/
def numLike : Value → Bool
  | .vNum _ => true
  | .vNaN => true
  | .vNull => true
  | _ => false

/-- Strings, null and undefined: the value kinds the categorical
theorems quantify over. -/
def strLike : Value → Bool
  | .vStr _ => true
  | .vNull => true
  | .vUndefined => true
  | _ => false

/-- `data.map(row => row[col]).filter(val => val !== null && !isNaN(val))`
(line 520). -/
def filteredVals (rows : List Row) (col : List Char) : List Value :=
  (rows.map (fun r => getProp r col)).filter
    (fun v => (v != Value.vNull) && !isNaNJS v)

/-- Numeric view of a kept value.  The statistics theorems hypothesise
that every kept value is an actual number (`vNum`), making the default
unreachable there; JavaScript's coercive arithmetic on other values is
outside the model. -/
def toQ : Value → ℚ
  | .vNum q => q
  | _ => 0

structure StatRec where
  min : ℚ
  max : ℚ
  avg : ℚ
  median : ℚ
  sum : ℚ
deriving DecidableEq

/-- Stable insertion into an ascending-sorted list, modelling the
stable `sort((a, b) => a - b)` of line 528 (ties are equal rationals,
so stability does not affect the result). -/
def insAsc (x : ℚ) : List ℚ → List ℚ
  | [] => [x]
  | y :: ys => if x < y then x :: y :: ys else y :: insAsc x ys

def sortAsc (l : List ℚ) : List ℚ := l.foldr insAsc []

/-- Per-column statistics (lines 519-540): present only when at least
one value survives the null/NaN filter. -/
def statsOf (rows : List Row) (col : List Char) : Option StatRec :=
  match (filteredVals rows col).map toQ with
  | [] => none
  | v :: vs =>
    let sum := (v :: vs).foldl (· + ·) 0
    let avg := sum / (((v :: vs).length : ℚ))
    let mn := vs.foldl min v
    let mx := vs.foldl max v
    let sorted := sortAsc (v :: vs)
    let mid := sorted.length / 2
    let median :=
      if sorted.length % 2 = 0 then (sorted.getD (mid - 1) 0 + sorted.getD mid 0) / 2
      else sorted.getD mid 0
    some ⟨mn, mx, avg, median, sum⟩

/-- The `statistics` record (line 518): one entry per numeric column
with surviving values, in column order. -/
def statsMap (rows : List Row) : List (List Char × StatRec) :=
  (numericColumnsOf rows).filterMap (fun c => (statsOf rows c).map (fun st => (c, st)))

/-- Fractional decimal digits, with recursion fuel; terminates within
the fuel for every ten-smooth denominator (all doubles). -/
def fracDigitsAux : Nat → ℚ → List Char
  | 0, _ => []
  | n + 1, q =>
    if q = 0 then []
    else
      let d := (q * 10).floor
      Char.ofNat (48 + d.toNat) :: fracDigitsAux n (q * 10 - (d : ℚ))

/-- Decimal rendering of a number (used for `String(v)` object keys;
the claims' keys are strings and booleans). -/
def numToStr (q : ℚ) : List Char :=
  (if q < 0 then ['-'] else [])
    ++ (Nat.repr |q|.floor.toNat).data
    ++ (if |q| - |q|.floor = 0 then [] else '.' :: fracDigitsAux 64 (|q| - |q|.floor))

/-- `String(v)`: the object-key coercion of a value. -/
def jsKeyOf : Value → List Char
  | .vStr s => s
  | .vBool true => "true".data
  | .vBool false => "false".data
  | .vNull => "null".data
  | .vUndefined => "undefined".data
  | .vNaN => "NaN".data
  | .vNum q => numToStr q
  | .vOther => "[object Object]".data

/-- Increment the count for `key` in a frequency map kept in key
creation order (new keys appended at the end).  This records the JS
object's property creation order; the `Object.entries` enumeration
order, which additionally moves array-index keys to the front in
numeric order, is modelled separately by `jsEntries`. -/
def bumpCount (m : List (List Char × Nat)) (key : List Char) : List (List Char × Nat) :=
  match m with
  | [] => [(key, 1)]
  | (k, n) :: rest => if k = key then (k, n + 1) :: rest else (k, n) :: bumpCount rest key

/-- One row's update of `valueMap` (lines 546-551): skip null and
undefined, otherwise count under the key `String(val)`. -/
def valueMapStep (col : List Char) (m : List (List Char × Nat)) (r : Row) :
    List (List Char × Nat) :=
  match getProp r col with
  | .vNull => m
  | .vUndefined => m
  | v => bumpCount m (jsKeyOf v)

/-- `valueMap` for one column (lines 545-551): frequencies of the
non-null, non-undefined values across all rows, in key creation
order. -/
def valueMapOf (rows : List Row) (col : List Char) : List (List Char × Nat) :=
  rows.foldl (valueMapStep col) []

/-- Stable insertion by descending count; `sortDescByCount` models the
stable `sort((a, b) => b[1] - a[1])` of line 555 (the element being
inserted precedes the accumulator's elements in the original order, so
ties keep it in front). -/
def insDesc (x : List Char × Nat) : List (List Char × Nat) → List (List Char × Nat)
  | [] => [x]
  | y :: ys => if y.2 ≤ x.2 then x :: y :: ys else y :: insDesc x ys

def sortDescByCount (l : List (List Char × Nat)) : List (List Char × Nat) :=
  l.foldr insDesc []

/-- `x.toFixed(2)` for nonnegative `x`: two decimal places, half-up
(the claims' values are not ties, where binary `toFixed` could differ). -/
def toFixed2 (q : ℚ) : List Char :=
  let n := (q * 100 + 1 / 2).floor.toNat
  (Nat.repr (n / 100)).data ++ '.' ::
    (if n % 100 < 10 then '0' :: (Nat.repr (n % 100)).data else (Nat.repr (n % 100)).data)

/-- The array-index value of a JS property key, when the key is one:
the canonical base-10 form of an integer below 2^32 - 1 (ES
OrdinaryOwnPropertyKeys).  `none` for every other key. -/
def keyIndexVal (s : List Char) : Option Nat :=
  match s with
  | [] => none
  | c :: cs =>
    if c = '0' then (if cs = [] then some 0 else none)
    else match parseDigitsAux 0 (c :: cs) with
      | some n => if n ≤ 4294967294 then some n else none
      | none => none

/-- The entries of a frequency map whose key is an array index, tagged
with the index value. -/
def idxEntries (m : List (List Char × Nat)) : List (Nat × (List Char × Nat)) :=
  m.filterMap (fun kv => (keyIndexVal kv.1).map (fun n => (n, kv)))

/-- Insertion into a list sorted by ascending index value. -/
def insAscN (x : Nat × (List Char × Nat)) :
    List (Nat × (List Char × Nat)) → List (Nat × (List Char × Nat))
  | [] => [x]
  | y :: ys => if x.1 < y.1 then x :: y :: ys else y :: insAscN x ys

def sortAscN (l : List (Nat × (List Char × Nat))) : List (Nat × (List Char × Nat)) :=
  l.foldr insAscN []

/-- `Object.entries` enumeration order over the frequency object
(line 554): own string keys that are array indices come first, in
ascending numeric order, then the remaining string keys in creation
(first-insertion) order, which `valueMapOf` records. -/
def jsEntries (m : List (List Char × Nat)) : List (List Char × Nat) :=
  (sortAscN (idxEntries m)).map Prod.snd
    ++ m.filter (fun kv => !(keyIndexVal kv.1).isSome)

/-- Top five values of a column (lines 554-557): the frequency map in
`Object.entries` enumeration order, stable-sorted by descending count,
truncated to five, with `count / rowCount * 100` formatted to two
decimals. -/
def topValuesOf (rows : List Row) (col : List Char) : List (List Char × Nat × List Char) :=
  ((sortDescByCount (jsEntries (valueMapOf rows col))).take 5).map
    (fun kc => (kc.1, kc.2, toFixed2 ((kc.2 : ℚ) / (rows.length : ℚ) * 100) ++ "%".data))

/-- The columns analysed categorically (line 544): the first five
columns whose type tag is string (`columnTypes[col] === 'string'`). -/
def stringCols5 : List Row → List (List Char)
  | [] => []
  | r :: _ => ((r.map Prod.fst).filter (fun c => typeTag (getProp r c) = .tString)).take 5

/-- `categoricalAnalysis` (lines 543-563): per analysed column, the
distinct-value count and the top values. -/
def catAnalysisOf (rows : List Row) :
    List (List Char × Nat × List (List Char × Nat × List Char)) :=
  (stringCols5 rows).map (fun c => (c, (valueMapOf rows c).length, topValuesOf rows c))

/-- The `trends` focus section (lines 568-575): one line per numeric
column that has statistics, reporting `max - min`. -/
def trendsSection (rows : List Row) : List (List Char × ℚ) :=
  (numericColumnsOf rows).filterMap
    (fun c => (statsOf rows c).map (fun st => (c, st.max - st.min)))

/-- The `outliers` focus section (lines 577-593): per numeric column
with statistics, the count of rows whose value deviates from the mean
by more than two population standard deviations.  The comparison
`|v - avg| > 2 * stdDev` is expressed on squares, avoiding the
irrational square root: both sides are nonnegative, so it is exact. -/
def outliersSection (rows : List Row) : List (List Char × Nat) :=
  (numericColumnsOf rows).filterMap fun c =>
    (statsOf rows c).map fun st =>
      let vals := (filteredVals rows c).map toQ
      let variance := (vals.foldl (fun s v => s + (v - st.avg) ^ 2) 0) / ((vals.length : ℚ))
      (c, (rows.filter (fun r =>
        let v := getProp r c
        (v != Value.vNull) && !isNaNJS v
          && decide ((toQ v - st.avg) ^ 2 > 4 * variance))).length)

/-- The `distribution` focus section (lines 595-615): a five-bin
histogram per numeric column with statistics.  (A zero bin size — all
values equal — is outside the claims' scope; rational division by zero
yields 0 here where JS indexes by NaN.) -/
def distributionSection (rows : List Row) : List (List Char × List Nat) :=
  (numericColumnsOf rows).filterMap fun c =>
    (statsOf rows c).map fun st =>
      let vals := (filteredVals rows c).map toQ
      let binSize := (st.max - st.min) / 5
      let bins := vals.foldl
        (fun (bins : List Nat) v =>
          let idx := min (((v - st.min) / binSize).floor.toNat) 4
          bins.set idx (bins.getD idx 0 + 1))
        [0, 0, 0, 0, 0]
      (c, bins)

/-! ### The Chart Spec Builder (`generate_visualization`, lines 675-987) -/

/-- Numeric columns of the first row (line 711). -/
def vizNumericCols (r : Row) : List (List Char) :=
  (r.map Prod.fst).filter (fun c => typeTag (getProp r c) = .numeric)

/-- String-or-boolean columns of the first row (line 712). -/
def vizCategoricalCols (r : Row) : List (List Char) :=
  (r.map Prod.fst).filter
    (fun c => typeTag (getProp r c) = TypeTag.tString ∨ typeTag (getProp r c) = TypeTag.tBool)

/-- X-axis column selection (lines 718-724); `none` models the
`undefined` read of `columns[0]` when the first row has no columns. -/
def chooseX (r : Row) : Option (List Char) :=
  match vizCategoricalCols r with
  | c :: _ => some c
  | [] =>
    match vizNumericCols r with
    | c :: _ => some c
    | [] => (r.map Prod.fst).head?

/-- Y-axis column selection (lines 726-733). -/
def chooseY (r : Row) : Option (List Char) :=
  match vizNumericCols r with
  | c :: rest =>
    if chooseX r = some c then
      match rest with
      | c2 :: _ => some c2
      | [] => some c
    else some c
  | [] =>
    if (r.map Prod.fst).length > 1 then (r.map Prod.fst).get? 1
    else (r.map Prod.fst).get? 0

/-- Modelled from the claim's wording (C9), for comparison with the
source's selection: category/X = first string-or-boolean column if any
exist, else first numeric column, else the first column by position;
value/Y = first numeric column, the second numeric column when the
first equals X and a second exists, else the second column by position,
or the first when only one column exists. -/
def specChooseX (r : Row) : Option (List Char) :=
  match (r.map Prod.fst).find?
      (fun c => typeTag (getProp r c) = TypeTag.tString ∨ typeTag (getProp r c) = TypeTag.tBool)
    with
  | some c => some c
  | none =>
    match (r.map Prod.fst).find? (fun c => typeTag (getProp r c) = TypeTag.numeric) with
    | some c => some c
    | none => (r.map Prod.fst).head?

def specChooseY (r : Row) : Option (List Char) :=
  match (r.map Prod.fst).find? (fun c => typeTag (getProp r c) = TypeTag.numeric) with
  | some c =>
    if specChooseX r = some c then
      match ((r.map Prod.fst).filter (fun c => typeTag (getProp r c) = TypeTag.numeric)).get? 1
        with
      | some c2 => some c2
      | none => some c
    else some c
  | none =>
    if (r.map Prod.fst).length > 1 then (r.map Prod.fst).get? 1
    else (r.map Prod.fst).get? 0

/-- `Number(v)` coercion; `none` is NaN. -/
def jsNumber : Value → Option ℚ
  | .vNum q => some q
  | .vNaN => none
  | .vNull => some 0
  | .vBool true => some 1
  | .vBool false => some 0
  | .vStr s => numParse s
  | .vUndefined => none
  | .vOther => none

/-- `row[x]` with an optional column name (an undefined column name
reads as `undefined`). -/
def getPropOpt (r : Row) : Option (List Char) → Value
  | some c => getProp r c
  | none => .vUndefined

/-- NaN-propagating addition on modelled numbers. -/
def addNaN : Option ℚ → Option ℚ → Option ℚ
  | some a, some b => some (a + b)
  | _, _ => none

/-- `(aggregatedData[key] || 0)` (lines 766, 768): a missing key and
the falsy values NaN and 0 all read as 0. -/
def orZero : Option (Option ℚ) → Option ℚ
  | some (some q) => some q
  | some none => some 0
  | none => some 0

/-- One update `agg[key] = (agg[key] || 0) + delta` of the pie
aggregation, preserving key insertion order. -/
def bumpAgg (m : List (List Char × Option ℚ)) (key : List Char) (delta : Option ℚ) :
    List (List Char × Option ℚ) :=
  match m with
  | [] => [(key, addNaN (orZero none) delta)]
  | (k, v) :: rest =>
    if k = key then (k, addNaN (orZero (some v)) delta) :: rest
    else (k, v) :: bumpAgg rest key delta

/-- Pie-chart aggregation (lines 759-773): keys in first-insertion
order; in sum mode add `Number(row[y])` per row, otherwise count. -/
def pieAgg (rows : List Row) (x y : Option (List Char)) (useSum : Bool) :
    List (List Char × Option ℚ) :=
  rows.foldl
    (fun m r =>
      bumpAgg m (jsKeyOf (getPropOpt r x)) (if useSum then jsNumber (getPropOpt r y) else some 1))
    []

/-- The pie branch of `generate_visualization` on a nonempty row array:
the aggregated (label, value) slices. -/
def pieChartData (r0 : Row) (rows : List Row) : List (List Char × Option ℚ) :=
  pieAgg (r0 :: rows) (chooseX r0) (chooseY r0) (!(vizNumericCols r0).isEmpty)

/-- Association-list lookup by column/key name. -/
def alookup {α : Type} : List (List Char × α) → List Char → Option α
  | [], _ => none
  | (k, v) :: rest, key => if k = key then some v else alookup rest key

/-- First-occurrence deduplication, tracking already-seen keys. -/
def firstDedup (seen : List (List Char)) : List (List Char) → List (List Char)
  | [] => []
  | k :: ks => if k ∈ seen then firstDedup seen ks else k :: firstDedup (k :: seen) ks

/-! ### `analyze_results` control flow (lines 477-674) -/

/-- A parsed JSON value (`JSON.parse` output). -/
inductive JsValue where
  | jNull
  | jBool (b : Bool)
  | jNum (q : ℚ)
  | jStr (s : List Char)
  | jArr (xs : List JsValue)
  | jObj (fields : List (List Char × JsValue))

/-- A parsed JSON scalar as a row value; nested values are `vOther`. -/
def toValue : JsValue → Value
  | .jNull => .vNull
  | .jBool b => .vBool b
  | .jNum q => .vNum q
  | .jStr s => .vStr s
  | .jArr _ => .vOther
  | .jObj _ => .vOther

/-- `Object.keys`: throws a TypeError on null; primitives coerce to
wrapper objects with no own enumerable keys. -/
def objKeysE : JsValue → Except (List Char) (List (List Char))
  | .jNull => .error "Cannot convert undefined or null to object".data
  | .jObj fields => .ok (fields.map Prod.fst)
  | _ => .ok []

/-- Property access `row[col]` on a parsed value: throws on null;
primitives read as `undefined`.  (Array index properties such as
`length` are outside the claims' scope.) -/
def getFieldE : JsValue → List Char → Except (List Char) Value
  | .jNull, _ => .error "Cannot read properties of null".data
  | .jObj fields, col =>
    .ok (match fields.find? (fun kv => kv.1 = col) with
      | some kv => toValue kv.2
      | none => .vUndefined)
  | _, _ => .ok .vUndefined

/-- A parsed row as a `Row` record (non-objects have no fields). -/
def toRow : JsValue → Row
  | .jObj fields => fields.map (fun kv => (kv.1, toValue kv.2))
  | _ => []

/-- The analysis text.  The spec leaves the exact prose layout as an
implementation choice; the model renders the computed content's column
names, the full numeric/categorical figures being exposed through
`statsMap`, `catAnalysisOf` and the focus sections. -/
def renderAnalysis (rows : List Row) (focus : Option (List Char)) : List Char :=
  "Data Analysis Summary ".data
    ++ (statsMap rows).foldr (fun e acc => e.1 ++ acc) []
    ++ (catAnalysisOf rows).foldr (fun e acc => e.1 ++ acc) []
    ++ (match focus with | some f => f | none => [])

/-- The body of the `analyze_results` branch: the property accesses
that can throw (caught by the catch block), in source order -
`Object.keys(data[0])`, then `row[col]` over all rows for each numeric
column (statistics) and each of the first five string columns
(categorical analysis) - followed by the rendered report. -/
def analyzeBody (d0 : JsValue) (drest : List JsValue) (focus : Option (List Char)) :
    Except (List Char) (List Char) := do
  let cols ← objKeysE d0
  let firstVal := fun c =>
    match getFieldE d0 c with
    | .ok v => v
    | .error _ => Value.vUndefined
  let numericCols := cols.filter (fun c => typeTag (firstVal c) = TypeTag.numeric)
  let strCols := (cols.filter (fun c => typeTag (firstVal c) = TypeTag.tString)).take 5
  let _ ← numericCols.mapM (fun c => (d0 :: drest).mapM (fun r => getFieldE r c))
  let _ ← strCols.mapM (fun c => (d0 :: drest).mapM (fun r => getFieldE r c))
  pure (renderAnalysis ((d0 :: drest).map toRow) focus)

/-- The `analyze_results` branch of the dispatcher (lines 477-674).
`JSON.parse` is an external primitive, modelled by its outcome: `none`
is a parse failure (a `SyntaxError`, caught by the catch block, whose
message text is environment-defined). -/
def analyzeHandler (parsed : Option JsValue) (focus : Option (List Char)) : ToolOutcome :=
  match parsed with
  | none => .result true "Error analyzing data: invalid JSON".data
  | some v =>
    match v with
    | .jArr (d0 :: drest) =>
      match analyzeBody d0 drest focus with
      | .ok text => .result false text
      | .error m => .result true ("Error analyzing data: ".data ++ m)
    | _ =>
      .result true
        "The provided data is empty or not in the expected format (array of objects).".data

/-- The error flag of an ordinary tool result (`none` for a thrown
protocol-level failure). -/
def isErrFlag : ToolOutcome → Option Bool
  | .result b _ => some b
  | .thrown _ => none

/-- The rows counted under `key` by the categorical frequency map: the
rows whose value in `col` is neither null nor undefined and whose
string coercion is `key` (the claim's "frequency mapping over non-null
values"). -/
def catCountP (col key : List Char) (r : Row) : Bool :=
  decide (getProp r col ≠ Value.vNull ∧ getProp r col ≠ Value.vUndefined
    ∧ jsKeyOf (getProp r col) = key)

/-- The spec's categorical example rows `[{"c":"x"},{"c":"x"},{"c":"y"}]`. -/
def rowsCx : List Row :=
  [[("c".data, Value.vStr "x".data)],
   [("c".data, Value.vStr "x".data)],
   [("c".data, Value.vStr "y".data)]]

/-- The first row of the spec's pie-chart example
`[{"k":"a","v":1},{"k":"a","v":2},{"k":"b","v":5}]`. -/
def rowPie0 : Row := [("k".data, Value.vStr "a".data), ("v".data, Value.vNum 1)]

/-- The remaining rows of the spec's pie-chart example. -/
def rowsPieRest : List Row :=
  [[("k".data, Value.vStr "a".data), ("v".data, Value.vNum 2)],
   [("k".data, Value.vStr "b".data), ("v".data, Value.vNum 5)]]

/-- One step of the per-key value accumulation read off the pie
aggregation, used to characterise `alookup` after the fold. -/
def pieAccStep (keyOf : Row → List Char) (delta : Row → Option ℚ) (key : List Char)
    (acc : Option (Option ℚ)) (r : Row) : Option (Option ℚ) :=
  if keyOf r = key then some (addNaN (orZero acc) (delta r)) else acc

/-- The claim's per-key sum: the sum of the (defined) `Number` values
of the rows whose category key is `key`. -/
def sumOverKey (keyOf : Row → List Char) (delta : Row → Option ℚ) (key : List Char)
    (rows : List Row) : ℚ :=
  ((rows.filter (fun r => decide (keyOf r = key))).map (fun r => (delta r).getD 0)).sum

/-!
## Part 2: lemmas and claim theorems
-/

theorem charCI_symm {a b : Char} (h : charCI a b = true) : charCI b a = true := by
  simp only [charCI, decide_eq_true_eq] at h ⊢
  exact h.symm

theorem stripCI_of_eqCI (p w : List Char) (x : List Char) (h : eqCI w p = true) :
    stripCI p (w ++ x) = some x := by
  induction p generalizing w with
  | nil => cases w with
    | nil => simp [stripCI]
    | cons b bs => simp [eqCI] at h
  | cons a as ih =>
    cases w with
    | nil => simp [eqCI] at h
    | cons b bs =>
      simp only [eqCI, Bool.and_eq_true] at h
      have hc : charCI a b = true := charCI_symm h.1
      simp [stripCI, hc, ih bs h.2]

theorem stripCI_exists_of_some (p s r : List Char) (h : stripCI p s = some r) :
    ∃ w, s = w ++ r ∧ eqCI w p = true ∧ w.length = p.length := by
  induction p generalizing s with
  | nil =>
    refine ⟨[], ?_, rfl, rfl⟩
    simpa [stripCI] using h
  | cons a as ih =>
    cases s with
    | nil => simp [stripCI] at h
    | cons c cs =>
      simp only [stripCI] at h
      split at h
      · obtain ⟨w, hw, he, hl⟩ := ih cs h
        rename_i hci
        refine ⟨c :: w, by simp [hw], ?_, by simp [hl]⟩
        simp [eqCI, he, charCI_symm hci]
      · exact absurd h (by simp)

theorem eqCI_length {w p : List Char} (h : eqCI w p = true) : w.length = p.length := by
  induction w generalizing p with
  | nil => cases p with
    | nil => rfl
    | cons b bs => simp [eqCI] at h
  | cons a as ih =>
    cases p with
    | nil => simp [eqCI] at h
    | cons b bs =>
      simp only [eqCI, Bool.and_eq_true] at h
      simp [ih h.2]

theorem stripCI_length {p s r : List Char} (h : stripCI p s = some r) :
    r.length + p.length = s.length := by
  obtain ⟨w, hw, _, hl⟩ := stripCI_exists_of_some p s r h
  subst hw
  simp [hl]
  omega

theorem kwHere_of_head (w suf kw : List Char) (hkw : kw ∈ forbiddenKeywords)
    (he : eqCI w kw = true)
    (hsuf : ∀ c, suf.head? = some c → isWordChar c = false) :
    kwHere (w ++ suf) = true := by
  unfold kwHere
  rw [List.any_eq_true]
  refine ⟨kw, hkw, ?_⟩
  rw [stripCI_of_eqCI kw w suf he]
  cases suf with
  | nil => simp
  | cons c cs => simp [hsuf c rfl]

theorem forbidScan_of_decomp (w suf kw : List Char) (hkw : kw ∈ forbiddenKeywords)
    (he : eqCI w kw = true)
    (hsuf : ∀ c, suf.head? = some c → isWordChar c = false) :
    ∀ pre prev, (pre = [] → prev = false) →
      (∀ c, pre.getLast? = some c → isWordChar c = false) →
      forbidScan prev (pre ++ w ++ suf) = true := by
  intro pre
  induction pre with
  | nil =>
    intro prev hp _
    have hkwne : kw.length ≠ 0 := by
      simp only [forbiddenKeywords, List.mem_cons, List.not_mem_nil, or_false] at hkw
      rcases hkw with h | h | h | h | h | h | h | h | h | h | h | h | h | h <;> subst h <;> simp
    have hw : w ≠ [] := by
      intro hnil
      subst hnil
      have := eqCI_length he
      simp at this
      exact hkwne this.symm
    cases hwc : w with
    | nil => exact absurd hwc hw
    | cons a as =>
      subst hwc
      simp only [List.nil_append, List.cons_append, forbidScan]
      rw [hp rfl]
      have : kwHere (a :: (as ++ suf)) = true := by
        have := kwHere_of_head (a :: as) suf kw hkw he hsuf
        simpa using this
      simp [this]
  | cons p ps ih =>
    intro prev _ hlast
    simp only [List.cons_append, forbidScan, Bool.or_eq_true]
    right
    refine ih (isWordChar p) ?_ ?_
    · intro hps
      subst hps
      exact hlast p rfl
    · intro c hc
      refine hlast c ?_
      cases ps with
      | nil => simp at hc
      | cons q qs => simpa [List.getLast?_cons_cons] using hc

theorem containsForbidden_of_spec (sql : List Char) (h : SQLHasForbiddenWord sql) :
    containsForbidden sql = true := by
  obtain ⟨pre, w, suf, kw, hkw, hsql, he, hpre, hsuf⟩ := h
  subst hsql
  exact forbidScan_of_decomp w suf kw hkw he hsuf pre false (fun _ => rfl) hpre

/-- Claim C1: for every SQL string that contains a forbidden keyword
(INSERT, UPDATE, DELETE, CREATE, DROP, ALTER, MERGE, TRUNCATE, GRANT,
REVOKE, EXECUTE, BEGIN, COMMIT, ROLLBACK) as a standalone word in any
letter case, the `query` operation rejects the call, and the outcome is
the same for every warehouse client — so the warehouse's
query-execution call is never invoked. -/
theorem query_rejects_forbidden (proj sql : List Char)
    (wh : List Char → Except (List Char) (List Char))
    (h : SQLHasForbiddenWord sql) :
    handleQuery proj sql wh = .thrown onlyReadMsg := by
  simp [handleQuery, containsForbidden_of_spec sql h]

theorem query_rejects_forbidden_witness :
    handleQuery "my-project".data "SELECT 1; drop TABLE t".data (fun _ => .ok []) =
      .thrown onlyReadMsg := by
  apply query_rejects_forbidden
  refine ⟨"SELECT 1; ".data, "drop".data, " TABLE t".data, "DROP".data,
    by decide, by decide, by decide, ?_, ?_⟩
  · intro c hc
    have hl : ("SELECT 1; ".data).getLast? = some ' ' := by decide
    rw [hl] at hc
    injection hc with h
    subst h
    decide
  · intro c hc
    injection hc with h
    subst h
    decide

/-- Claim C2, counterexample: the forbidden-keyword fault is raised
(thrown) past the dispatcher, not returned as an error-flagged tool
result: at sql `INSERT` the `query` branch throws the policy error. -/
theorem query_forbidden_thrown_counterexample :
    handleQuery "p".data "INSERT".data (fun _ => .ok []) = .thrown onlyReadMsg := by
  decide

/-- Claim C2 (amended): for per-call faults of the `query` operation
raised inside its try block — a missing dataset qualifier on an
INFORMATION_SCHEMA reference, or a warehouse-side execution failure —
the dispatcher returns an ordinary tool result carrying an error flag
and a human-readable message, and nothing is thrown past the
dispatcher; the forbidden-keyword fault, however, is checked before the
try block and is thrown. -/
theorem query_faults_amended (proj sql : List Char)
    (wh : List Char → Except (List Char) (List Char))
    (h : containsForbidden sql = false) :
    (∀ m, handleQuery proj sql wh ≠ .thrown m) ∧
    (∀ m, effectiveSql proj sql = .error m →
      handleQuery proj sql wh = .result true (errPrefix ++ m)) ∧
    (∀ s m, effectiveSql proj sql = .ok s → wh s = .error m →
      handleQuery proj sql wh = .result true (errPrefix ++ m)) := by
  unfold handleQuery effectiveSql
  rw [h]
  simp only [Bool.false_eq_true, if_false]
  refine ⟨?_, ?_, ?_⟩
  · intro m
    cases heff : (if containsInfoSchema sql then qualifyTablePath proj sql else .ok sql) with
    | error e => simp [heff]
    | ok s =>
      cases hwh : wh s with
      | error e => simp [heff, hwh]
      | ok t => simp [heff, hwh]
  · intro m heff
    simp [heff]
  · intro s m heff hwh
    simp [heff, hwh]

theorem query_faults_amended_witness :
    handleQuery "p".data "SELECT * FROM INFORMATION_SCHEMA.TABLES".data (fun _ => .ok []) =
      .result true (errPrefix ++ dsErrMsg) := by
  exact (query_faults_amended "p".data "SELECT * FROM INFORMATION_SCHEMA.TABLES".data
    (fun _ => .ok []) (by decide)).2.1 dsErrMsg (by rfl)

theorem ws_not_word {c : Char} (h : isWsChar c = true) : isWordChar c = false := by
  simp only [isWsChar, decide_eq_true_eq] at h
  rcases h with h | h | h | h | h | h <;> subst h <;> decide

theorem word_not_ws {c : Char} (h : isWordChar c = true) : isWsChar c = false := by
  by_contra hws
  rw [Bool.not_eq_false] at hws
  rw [ws_not_word hws] at h
  exact Bool.false_ne_true h

theorem takeWhile_append_of_all {p : Char → Bool} (a : List Char) {b : Char} (y : List Char)
    (ha : ∀ c ∈ a, p c = true) (hb : p b = false) :
    (a ++ b :: y).takeWhile p = a := by
  induction a with
  | nil => simp [List.takeWhile_cons, hb]
  | cons x xs ih =>
    have hx : p x = true := ha x (by simp)
    simp only [List.cons_append, List.takeWhile_cons, hx, if_true]
    rw [ih (fun c hc => ha c (by simp [hc]))]

theorem matchIS_length {s : List Char} {d : Option (List Char)} {rest : List Char}
    (h : matchIS s = some (d, rest)) : rest.length < s.length := by
  unfold matchIS at h
  cases h1 : stripCI "FROM".data s with
  | none => rw [h1] at h; exact absurd h (by simp)
  | some s1 =>
    rw [h1] at h
    have hs1 : s1.length + 4 = s.length := stripCI_length h1
    simp only at h
    split at h
    · exact absurd h (by simp)
    · rename_i hw
      split at h
      · exact absurd h (by simp)
      · rename_i hR
        have hwle : (s1.takeWhile isWsChar).length ≤ s1.length :=
          (List.takeWhile_prefix _).length_le
        have hdrop : (s1.drop (s1.takeWhile isWsChar).length).length
            = s1.length - (s1.takeWhile isWsChar).length := List.length_drop _ _
        split at h
        · rename_i rest0 h2
          have h2len : s1.length - ((s1.takeWhile isWsChar).length
              + ((s1.drop (s1.takeWhile isWsChar).length).takeWhile isWordChar).length)
              = rest0.length + 1 := by
            have := congrArg List.length h2
            simpa [List.length_drop] using this
          split at h
          · rename_i rest1 h3
            have h3len : rest1.length + litISTables.length = rest0.length :=
              stripCI_length h3
            have hlit : litISTables.length = 25 := by decide
            injection h with h'
            injection h' with hd hrest
            subst hrest
            omega
          · split at h
            · rename_i rest1
              cases h4 : stripCI litTables rest0 with
              | none => rw [h4] at h; exact absurd h (by simp)
              | some rest2 =>
                rw [h4] at h
                have h4len : rest2.length + litTables.length = rest0.length :=
                  stripCI_length h4
                have hlit : litTables.length = 6 := by decide
                injection h with h'
                injection h' with hd hrest
                subst hrest
                omega
            · exact absurd h (by simp)
        · exact absurd h (by simp)

theorem qualifyAux_stable (proj : List Char) :
    ∀ f₁ f₂ s, s.length ≤ f₁ → s.length ≤ f₂ →
      qualifyAux proj f₁ s = qualifyAux proj f₂ s := by
  intro f₁
  induction f₁ with
  | zero =>
    intro f₂ s h1 _
    have : s = [] := List.length_eq_zero.mp (Nat.le_zero.mp h1)
    subst this
    cases f₂ <;> rfl
  | succ n ih =>
    intro f₂ s h1 h2
    cases s with
    | nil => cases f₂ <;> rfl
    | cons c cs =>
      cases f₂ with
      | zero => simp at h2
      | succ m =>
        simp only [qualifyAux]
        cases hm : matchIS (c :: cs) with
        | none =>
          have hn : cs.length ≤ n := by simp at h1; omega
          have hmm : cs.length ≤ m := by simp at h2; omega
          dsimp only
          rw [ih m cs hn hmm]
        | some v =>
          obtain ⟨d, rest⟩ := v
          cases d with
          | none => rfl
          | some ds =>
            have hlt := matchIS_length hm
            have hn : rest.length ≤ n := by simp at h1 hlt; omega
            have hmm : rest.length ≤ m := by simp at h2 hlt; omega
            dsimp only
            rw [ih m rest hn hmm]

theorem qualifyAux_eq_qtp (proj : List Char) (fuel : Nat) (s : List Char)
    (h : s.length ≤ fuel) : qualifyAux proj fuel s = qualifyTablePath proj s :=
  qualifyAux_stable proj fuel s.length s h le_rfl

/-- One-step unfolding of `qualifyTablePath`, with the recursive calls
expressed via `qualifyTablePath` itself. -/
theorem qualifyTablePath_step (proj : List Char) (c : Char) (cs : List Char) :
    qualifyTablePath proj (c :: cs) =
      match matchIS (c :: cs) with
      | some (some ds, rest) => (qualifyTablePath proj rest).map (fun r => replIS proj ds ++ r)
      | some (none, _) => .error dsErrMsg
      | none => (qualifyTablePath proj cs).map (fun r => c :: r) := by
  unfold qualifyTablePath
  rw [show (c :: cs).length = cs.length + 1 from rfl]
  simp only [qualifyAux]
  cases hm : matchIS (c :: cs) with
  | none => rfl
  | some v =>
    obtain ⟨d, rest⟩ := v
    cases d with
    | none => rfl
    | some ds =>
      have hlt := matchIS_length hm
      dsimp only
      rw [qualifyAux_eq_qtp proj cs.length rest (by simp at hlt; omega)]
      rfl

theorem matchIS_qualified (ds rest : List Char)
    (hds : ∀ c ∈ ds, isWordChar c = true) (hne : ds ≠ []) :
    matchIS ("FROM ".data ++ ds ++ '.' :: (litISTables ++ rest)) = some (some ds, rest) := by
  have hshape : "FROM ".data ++ ds ++ '.' :: (litISTables ++ rest)
      = "FROM".data ++ (' ' :: (ds ++ '.' :: (litISTables ++ rest))) := rfl
  have h1 : stripCI "FROM".data ("FROM".data ++ (' ' :: (ds ++ '.' :: (litISTables ++ rest))))
      = some (' ' :: (ds ++ '.' :: (litISTables ++ rest))) :=
    stripCI_of_eqCI "FROM".data "FROM".data _ (by decide)
  have hw : (' ' :: (ds ++ '.' :: (litISTables ++ rest))).takeWhile isWsChar = [' '] := by
    obtain ⟨d, dtl, hd⟩ : ∃ d dtl, ds = d :: dtl := by
      cases ds with
      | nil => exact absurd rfl hne
      | cons d dtl => exact ⟨d, dtl, rfl⟩
    have hdw : isWordChar d = true := hds d (by simp [hd])
    have hdws : isWsChar d = false := word_not_ws hdw
    rw [hd]
    simp [List.takeWhile_cons, hdws, show isWsChar ' ' = true from by decide]
  have htw : (ds ++ '.' :: (litISTables ++ rest)).takeWhile isWordChar = ds :=
    takeWhile_append_of_all ds _ hds (by decide)
  have hstrip : stripCI litISTables (litISTables ++ rest) = some rest :=
    stripCI_of_eqCI litISTables litISTables rest (by decide)
  rw [hshape]
  simp only [matchIS, h1, hw, htw, List.length_cons, List.length_nil, Nat.zero_add,
    List.drop_succ_cons, List.drop_zero, List.drop_left, hstrip]
  simp [hne, List.length_eq_zero]

theorem matchIS_unqualified (rest : List Char) :
    matchIS ("FROM ".data ++ (litIS ++ '.' :: (litTables ++ rest))) = some (none, rest) := by
  have hshape : "FROM ".data ++ (litIS ++ '.' :: (litTables ++ rest))
      = "FROM".data ++ (' ' :: (litIS ++ '.' :: (litTables ++ rest))) := rfl
  have h1 : stripCI "FROM".data ("FROM".data ++ (' ' :: (litIS ++ '.' :: (litTables ++ rest))))
      = some (' ' :: (litIS ++ '.' :: (litTables ++ rest))) :=
    stripCI_of_eqCI "FROM".data "FROM".data _ (by decide)
  have hw : (' ' :: (litIS ++ '.' :: (litTables ++ rest))).takeWhile isWsChar = [' '] := by
    have h2 : (litIS ++ '.' :: (litTables ++ rest)).takeWhile isWsChar = [] := by
      have hsh : litIS ++ '.' :: (litTables ++ rest)
          = 'I' :: ("NFORMATION_SCHEMA".data ++ '.' :: (litTables ++ rest)) := rfl
      rw [hsh]
      simp [List.takeWhile_cons, show isWsChar 'I' = false from by decide]
    simp [List.takeWhile_cons, show isWsChar ' ' = true from by decide, h2]
  have htw : (litIS ++ '.' :: (litTables ++ rest)).takeWhile isWordChar = litIS :=
    takeWhile_append_of_all litIS _ (by decide) (by decide)
  have hnone : stripCI litISTables (litTables ++ rest) = none := rfl
  have hstrip : stripCI litTables (litTables ++ rest) = some rest :=
    stripCI_of_eqCI litTables litTables rest (by decide)
  rw [hshape]
  simp only [matchIS, h1, hw, htw, List.length_cons, List.length_nil, Nat.zero_add,
    List.drop_succ_cons, List.drop_zero, List.drop_left, hnone, hstrip]
  simp [show eqCI litIS litIS = true from by decide, show ¬litIS = [] from by decide]

theorem qtp_match_ds (proj ds rest : List Char)
    (hds : ∀ c ∈ ds, isWordChar c = true) (hne : ds ≠ []) :
    qualifyTablePath proj ("FROM ".data ++ ds ++ '.' :: (litISTables ++ rest))
      = (qualifyTablePath proj rest).map (fun r => replIS proj ds ++ r) := by
  have hshape : "FROM ".data ++ ds ++ '.' :: (litISTables ++ rest)
      = 'F' :: ("ROM ".data ++ ds ++ '.' :: (litISTables ++ rest)) := rfl
  rw [hshape, qualifyTablePath_step, ← hshape, matchIS_qualified ds rest hds hne]

theorem qtp_match_nods (proj rest : List Char) :
    qualifyTablePath proj ("FROM ".data ++ (litIS ++ '.' :: (litTables ++ rest)))
      = .error dsErrMsg := by
  have hshape : "FROM ".data ++ (litIS ++ '.' :: (litTables ++ rest))
      = 'F' :: ("ROM ".data ++ (litIS ++ '.' :: (litTables ++ rest))) := rfl
  rw [hshape, qualifyTablePath_step, ← hshape, matchIS_unqualified rest]

theorem qtp_skip (proj : List Char) (c : Char) (s : List Char)
    (h : matchIS (c :: s) = none) :
    qualifyTablePath proj (c :: s) = (qualifyTablePath proj s).map (fun r => c :: r) := by
  rw [qualifyTablePath_step, h]

/-- Claim C3: for SQL containing an INFORMATION_SCHEMA reference, every
occurrence of `FROM ds.INFORMATION_SCHEMA.TABLES` (dataset qualifier
present, `ds` a nonempty `\w+` word) is rewritten to the backtick-quoted
fully qualified form using the configured project id, the scan then
continuing in the remainder; every occurrence of
`FROM INFORMATION_SCHEMA.TABLES` with no dataset qualifier makes the
call fail with the usage error instructing the caller to specify a
dataset; and positions where the pattern does not match are passed
through unchanged. -/
theorem infoschema_qualification (proj ds rest : List Char)
    (hds : ∀ c ∈ ds, isWordChar c = true) (hne : ds ≠ []) :
    qualifyTablePath proj ("FROM ".data ++ ds ++ '.' :: (litISTables ++ rest))
      = (qualifyTablePath proj rest).map
          (fun r => "FROM `".data ++ proj ++ ".".data ++ ds
            ++ ".INFORMATION_SCHEMA.TABLES`".data ++ r)
    ∧ qualifyTablePath proj ("FROM ".data ++ (litIS ++ '.' :: (litTables ++ rest)))
      = .error dsErrMsg
    ∧ ∀ c s, matchIS (c :: s) = none →
        qualifyTablePath proj (c :: s) = (qualifyTablePath proj s).map (fun r => c :: r) :=
  ⟨qtp_match_ds proj ds rest hds hne, qtp_match_nods proj rest, qtp_skip proj⟩

theorem infoschema_qualification_witness :
    qualifyTablePath "my-project".data ("FROM ".data ++ "mydata".data ++ '.' :: (litISTables ++ []))
      = .ok "FROM `my-project.mydata.INFORMATION_SCHEMA.TABLES`".data
    ∧ qualifyTablePath "my-project".data ("FROM ".data ++ (litIS ++ '.' :: (litTables ++ [])))
      = .error dsErrMsg := by
  constructor
  · rw [(infoschema_qualification "my-project".data "mydata".data [] (by decide) (by decide)).1]
    rfl
  · exact (infoschema_qualification "my-project".data "mydata".data [] (by decide)
      (by decide)).2.1

theorem takeWhile_split (p : Char → Bool) (l : List Char) :
    l = l.takeWhile p ++ l.drop (l.takeWhile p).length := by
  conv_lhs => rw [← List.take_append_drop (l.takeWhile p).length l]
  rw [← List.prefix_iff_eq_take.mp (List.takeWhile_prefix p)]

theorem matchIS_some_decomp {s : List Char} {d : Option (List Char)} {rest : List Char}
    (h : matchIS s = some (d, rest)) :
    ∃ f4 w R rest0,
      s = f4 ++ (w ++ (R ++ '.' :: rest0)) ∧
      eqCI f4 "FROM".data = true ∧
      w ≠ [] ∧ (∀ c ∈ w, isWsChar c = true) ∧
      R ≠ [] ∧ (∀ c ∈ R, isWordChar c = true) ∧
      ((d = some R ∧ ∃ lit, eqCI lit litISTables = true ∧ rest0 = lit ++ rest) ∨
       (d = none ∧ eqCI R litIS = true ∧
         ∃ lit6, eqCI lit6 litTables = true ∧ rest0 = lit6 ++ rest)) := by
  unfold matchIS at h
  cases h1 : stripCI "FROM".data s with
  | none => rw [h1] at h; exact absurd h (by simp)
  | some s1 =>
    rw [h1] at h
    obtain ⟨f4, hs, hf4, _⟩ := stripCI_exists_of_some _ _ _ h1
    simp only at h
    split at h
    · exact absurd h (by simp)
    · rename_i hwlen
      split at h
      · exact absurd h (by simp)
      · rename_i hRlen
        set w := s1.takeWhile isWsChar with hwdef
        set s2 := s1.drop w.length with hs2def
        set R := s2.takeWhile isWordChar with hRdef
        have hs1split : s1 = w ++ s2 := by
          rw [hwdef, hs2def]
          exact takeWhile_split isWsChar s1
        have hws : ∀ c ∈ w, isWsChar c = true := fun c hc => List.mem_takeWhile_imp hc
        have hRw : ∀ c ∈ R, isWordChar c = true := fun c hc => List.mem_takeWhile_imp hc
        have hwne : w ≠ [] := by
          intro hn; rw [hn] at hwlen; exact hwlen rfl
        have hRne : R ≠ [] := by
          intro hn; rw [hn] at hRlen; exact hRlen rfl
        split at h
        · rename_i rest0 h2
          have hs2split : s2 = R ++ '.' :: rest0 := by
            conv_lhs => rw [takeWhile_split isWordChar s2]
            rw [← hRdef, h2]
          cases h3 : stripCI litISTables rest0 with
          | some rest1 =>
            rw [h3] at h
            obtain ⟨lit, hlit, hlite, _⟩ := stripCI_exists_of_some _ _ _ h3
            injection h with h'
            injection h' with hd hrest
            refine ⟨f4, w, R, rest0, ?_, hf4, hwne, hws, hRne, hRw, Or.inl ⟨hd.symm, lit, hlite, ?_⟩⟩
            · rw [hs, hs1split, hs2split]
            · rw [hlit, hrest]
          | none =>
            rw [h3] at h
            dsimp only at h
            split at h
            · rename_i hReq
              cases h4 : stripCI litTables rest0 with
              | none => rw [h4] at h; dsimp only at h; exact absurd h (by simp)
              | some rest2 =>
                rw [h4] at h
                dsimp only at h
                obtain ⟨lit6, hlit6, hlit6e, _⟩ := stripCI_exists_of_some _ _ _ h4
                injection h with h'
                injection h' with hd hrest
                refine ⟨f4, w, R, rest0, ?_, hf4, hwne, hws, hRne, hRw,
                  Or.inr ⟨hd.symm, hReq, lit6, hlit6e, ?_⟩⟩
                · rw [hs, hs1split, hs2split]
                · rw [hlit6, hrest]
            · exact absurd h (by simp)
        · exact absurd h (by simp)

theorem matchIS_isSome_of_decomp (f4 w R rest0 : List Char)
    (hf4 : eqCI f4 "FROM".data = true)
    (hw : w ≠ []) (hws : ∀ c ∈ w, isWsChar c = true)
    (hR : R ≠ []) (hRw : ∀ c ∈ R, isWordChar c = true)
    (hpath : stripCI litISTables rest0 ≠ none ∨
      (eqCI R litIS = true ∧ stripCI litTables rest0 ≠ none)) :
    matchIS (f4 ++ (w ++ (R ++ '.' :: rest0))) ≠ none := by
  have h1 : stripCI "FROM".data (f4 ++ (w ++ (R ++ '.' :: rest0)))
      = some (w ++ (R ++ '.' :: rest0)) := stripCI_of_eqCI _ f4 _ hf4
  obtain ⟨R0, R', hRc⟩ : ∃ R0 R', R = R0 :: R' := by
    cases R with
    | nil => exact absurd rfl hR
    | cons R0 R' => exact ⟨R0, R', rfl⟩
  have hR0w : isWordChar R0 = true := hRw R0 (by simp [hRc])
  have htw : (w ++ (R ++ '.' :: rest0)).takeWhile isWsChar = w := by
    have hsh : w ++ (R ++ '.' :: rest0) = w ++ R0 :: (R' ++ '.' :: rest0) := by
      rw [hRc]; simp
    rw [hsh]
    exact takeWhile_append_of_all w _ hws (word_not_ws hR0w)
  have hdw : (w ++ (R ++ '.' :: rest0)).drop w.length = R ++ '.' :: rest0 :=
    List.drop_left w _
  have htR : (R ++ '.' :: rest0).takeWhile isWordChar = R :=
    takeWhile_append_of_all R _ hRw (by decide)
  have hdR : (R ++ '.' :: rest0).drop R.length = '.' :: rest0 :=
    List.drop_left R _
  have hwlen : w.length ≠ 0 := fun hn => hw (List.length_eq_zero.mp hn)
  have hRlen : R.length ≠ 0 := fun hn => hR (List.length_eq_zero.mp hn)
  simp only [matchIS, h1, htw, hdw, htR, hdR, if_neg hwlen, if_neg hRlen]
  cases h3 : stripCI litISTables rest0 with
  | some rest1 => simp
  | none =>
    rcases hpath with hp | ⟨hReq, hp⟩
    · exact absurd h3 hp
    · rw [hReq]
      cases h4 : stripCI litTables rest0 with
      | none => exact absurd h4 hp
      | some rest2 => simp

theorem matchIS_none_of_fstNot (c₀ : Char) (t : List Char)
    (h : charCI 'F' c₀ = false) : matchIS (c₀ :: t) = none := by
  have h1 : stripCI "FROM".data (c₀ :: t) = none := by
    simp [stripCI, h, show "FROM".data = 'F' :: "ROM".data from rfl]
  simp [matchIS, h1]

theorem matchIS_none_mid (a b c d e : Char) (t : List Char)
    (he : isWsChar e = false) : matchIS (a :: b :: c :: d :: e :: t) = none := by
  cases h1 : stripCI "FROM".data (a :: b :: c :: d :: e :: t) with
  | none => simp [matchIS, h1]
  | some s1 =>
    have hlen : s1.length + 4 = (a :: b :: c :: d :: e :: t).length := stripCI_length h1
    obtain ⟨w, hweq, _, hwlen⟩ := stripCI_exists_of_some _ _ _ h1
    have hw4 : w.length = 4 := by simpa using hwlen
    have hs1 : s1 = e :: t := by
      obtain ⟨w1, w2, w3, w4, hw⟩ : ∃ w1 w2 w3 w4, w = [w1, w2, w3, w4] := by
        cases w with
        | nil => simp at hw4
        | cons x1 r1 =>
          cases r1 with
          | nil => simp at hw4
          | cons x2 r2 =>
            cases r2 with
            | nil => simp at hw4
            | cons x3 r3 =>
              cases r3 with
              | nil => simp at hw4
              | cons x4 r4 =>
                refine ⟨x1, x2, x3, x4, ?_⟩
                simp at hw4
                simp [hw4]
      rw [hw] at hweq
      simp at hweq
      obtain ⟨_, _, _, _, h5⟩ := hweq
      exact h5.symm
    have htw : s1.takeWhile isWsChar = [] := by
      rw [hs1]
      simp [List.takeWhile_cons, he]
    simp [matchIS, h1, htw]

theorem eqCI_append_split {a b p : List Char} (h : eqCI (a ++ b) p = true) :
    ∃ p1 p2, p = p1 ++ p2 ∧ eqCI a p1 = true ∧ eqCI b p2 = true ∧ p1.length = a.length := by
  induction a generalizing p with
  | nil => exact ⟨[], p, rfl, rfl, by simpa using h, rfl⟩
  | cons x xs ih =>
    cases p with
    | nil => rw [List.cons_append] at h; simp [eqCI] at h
    | cons q qs =>
      rw [List.cons_append] at h
      simp only [eqCI, Bool.and_eq_true] at h
      obtain ⟨p1, p2, hp, ha, hb, hl⟩ := ih h.2
      exact ⟨q :: p1, p2, by simp [hp], by simp [eqCI, h.1, ha], hb, by simp [hl]⟩

theorem okFR_tail {c : Char} {l : List Char} (h : okFR (c :: l) = true) : okFR l = true := by
  cases l with
  | nil => rfl
  | cons c' r =>
    simp only [okFR, Bool.and_eq_true] at h
    exact h.2

theorem okFR_split {L : List Char} (hok : okFR L = true) :
    ∀ p1 q₀ q₂, L = p1 ++ q₀ :: q₂ → charCI 'F' q₀ = true →
      ∃ q₁ q₃, q₂ = q₁ :: q₃ ∧ charCI 'R' q₁ = false := by
  intro p1
  induction p1 generalizing L with
  | nil =>
    intro q₀ q₂ hL hf
    subst hL
    cases q₂ with
    | nil =>
      simp only [okFR] at hok
      rw [hf] at hok
      exact absurd hok (by simp)
    | cons q₁ q₃ =>
      simp only [okFR, Bool.and_eq_true, Bool.or_eq_true] at hok
      rcases hok.1 with h' | h'
      · rw [hf] at h'; exact absurd h' (by simp)
      · exact ⟨q₁, q₃, rfl, by simpa using h'⟩
  | cons x p1' ih =>
    intro q₀ q₂ hL hf
    subst hL
    exact ih (okFR_tail hok) q₀ q₂ rfl hf

theorem mem_of_append_cons {L p1 : List Char} {q₀ : Char} {q₂ : List Char}
    (h : L = p1 ++ q₀ :: q₂) : q₀ ∈ L := by
  subst h
  simp

theorem block_not_word_dot (u z rest0 : List Char)
    (hu : ∀ c ∈ u, isWordChar c = true) :
    'F' :: 'R' :: 'O' :: 'M' :: ' ' :: z ≠ u ++ ('.' :: rest0) := by
  intro heq
  rcases u with _ | ⟨u1, _ | ⟨u2, _ | ⟨u3, _ | ⟨u4, _ | ⟨u5, u'⟩⟩⟩⟩⟩
  · simp at heq
  · simp at heq
  · simp at heq
  · simp at heq
  · simp at heq
  · simp only [List.cons_append, List.cons.injEq] at heq
    obtain ⟨_, _, _, _, h5, _⟩ := heq
    have := hu u5 (by simp)
    rw [← h5] at this
    exact absurd this (by decide)

theorem from_split_not_f {p1 : List Char} {q₀ : Char} {q₂ : List Char}
    (h : "FROM".data = p1 ++ q₀ :: q₂) (hp : p1 ≠ []) : charCI 'F' q₀ = false := by
  cases p1 with
  | nil => exact absurd rfl hp
  | cons x p1' =>
    have hx : "FROM".data = 'F' :: "ROM".data := rfl
    rw [hx, List.cons_append] at h
    injection h with h1 h2
    have hm : q₀ ∈ "ROM".data := mem_of_append_cons h2
    have hr : "ROM".data = ['R', 'O', 'M'] := rfl
    rw [hr] at hm
    simp only [List.mem_cons, List.not_mem_nil, or_false] at hm
    rcases hm with h' | h' | h' <;> subst h' <;> decide

theorem tables_split_not_f {p1 : List Char} {q₀ : Char} {q₂ : List Char}
    (h : litTables = p1 ++ q₀ :: q₂) : charCI 'F' q₀ = false := by
  have hm : q₀ ∈ litTables := mem_of_append_cons h
  have hr : litTables = ['T', 'A', 'B', 'L', 'E', 'S'] := rfl
  rw [hr] at hm
  simp only [List.mem_cons, List.not_mem_nil, or_false] at hm
  rcases hm with h' | h' | h' | h' | h' | h' <;> subst h' <;> decide

/-- A match of the qualification pattern that starts strictly before a
rewritten block `FROM \x60...` must fail: if the text `q ++ s` has no
match at its head (for any continuation `s`), then neither does
`q ++ FROM-space-...`, because the block's opening `FROM ` kills every
partially-completed match crossing the boundary. -/
theorem matchIS_cross (q s z : List Char) (hq : q ≠ [])
    (h : matchIS (q ++ s) = none) :
    matchIS (q ++ ('F' :: 'R' :: 'O' :: 'M' :: ' ' :: z)) = none := by
  cases hm : matchIS (q ++ ('F' :: 'R' :: 'O' :: 'M' :: ' ' :: z)) with
  | none => rfl
  | some v =>
    exfalso
    obtain ⟨d, rest⟩ := v
    obtain ⟨f4, w, R, rest0, heq, hf4, hwne, hws, hRne, hRw, hpath⟩ := matchIS_some_decomp hm
    rcases List.append_eq_append_iff.mp heq with ⟨a1, hf4q, hblock⟩ | ⟨c1, hqf4, htail⟩
    · -- boundary inside (or at the end of) the pattern's FROM part
      cases a1 with
      | nil =>
        rw [List.append_nil] at hf4q
        simp only [List.nil_append] at hblock
        cases w with
        | nil => exact hwne rfl
        | cons w0 w' =>
          rw [List.cons_append] at hblock
          injection hblock with h1 _
          have hw0 := hws w0 (by simp)
          rw [← h1] at hw0
          exact absurd hw0 (by decide)
      | cons a0 a1' =>
        rw [List.cons_append] at hblock
        injection hblock with h1 _
        rw [hf4q] at hf4
        obtain ⟨p1, p2, hp, hq1, hq2, hl⟩ := eqCI_append_split hf4
        have hp1ne : p1 ≠ [] := by
          intro hn
          rw [hn] at hl
          simp at hl
          exact hq (List.length_eq_zero.mp hl.symm)
        cases p2 with
        | nil =>
          have := eqCI_length hq2
          simp at this
        | cons q₀ q₂ =>
          have hcc : charCI a0 q₀ = true := by
            simp only [eqCI, Bool.and_eq_true] at hq2
            exact hq2.1
          rw [← h1] at hcc
          rw [from_split_not_f hp hp1ne] at hcc
          exact Bool.false_ne_true hcc
    · -- q = f4 ++ c1; the whitespace / word-run / literal parts
      rcases List.append_eq_append_iff.mp htail with ⟨a2, hc1w, hE3⟩ | ⟨c2, hwc, hblock2⟩
      · rcases List.append_eq_append_iff.mp hE3 with ⟨a3, ha2R, hE4⟩ | ⟨c3, hRa2, hblock3⟩
        · cases a3 with
          | nil =>
            simp only [List.nil_append] at hE4
            injection hE4 with h1 _
            exact absurd h1 (by decide)
          | cons a30 a3' =>
            rw [List.cons_append] at hE4
            injection hE4 with h1 hE5
            rcases hpath with ⟨hd, lit, hlite, hrest0⟩ | ⟨hd, hReq, lit6, hlit6e, hrest0⟩
            · have hE6 : a3' ++ ('F' :: 'R' :: 'O' :: 'M' :: ' ' :: z) = lit ++ rest := by
                rw [← hE5, hrest0]
              rcases List.append_eq_append_iff.mp hE6 with ⟨a5, hlita, hblock4⟩ |
                ⟨c5, ha3lit, hrest4⟩
              · cases a5 with
                | nil =>
                  rw [List.append_nil] at hlita
                  have hqeq : q ++ s = f4 ++ (w ++ (R ++ '.' :: (lit ++ s))) := by
                    rw [hqf4, hc1w, ha2R, ← hlita, ← h1]
                    simp [List.append_assoc]
                  have hsome := matchIS_isSome_of_decomp f4 w R (lit ++ s) hf4 hwne hws hRne hRw
                    (Or.inl (by rw [stripCI_of_eqCI litISTables lit s hlite]; simp))
                  rw [← hqeq] at hsome
                  exact hsome h
                | cons a50 a5' =>
                  rw [List.cons_append] at hblock4
                  injection hblock4 with hb1 hb2
                  rw [hlita] at hlite
                  obtain ⟨p1, p2, hp, hqa, hqb, hl⟩ := eqCI_append_split hlite
                  cases p2 with
                  | nil =>
                    have := eqCI_length hqb
                    simp at this
                  | cons q₀ q₂ =>
                    have hcc : charCI a50 q₀ = true := by
                      simp only [eqCI, Bool.and_eq_true] at hqb
                      exact hqb.1
                    rw [← hb1] at hcc
                    obtain ⟨q₁, q₃, hq2eq, hr⟩ :=
                      okFR_split (by decide : okFR litISTables = true) p1 q₀ q₂ hp hcc
                    subst hq2eq
                    have hq2' : eqCI a5' (q₁ :: q₃) = true := by
                      simp only [eqCI, Bool.and_eq_true] at hqb
                      exact hqb.2
                    cases a5' with
                    | nil => simp [eqCI] at hq2'
                    | cons a60 a6' =>
                      have hcc2 : charCI a60 q₁ = true := by
                        simp only [eqCI, Bool.and_eq_true] at hq2'
                        exact hq2'.1
                      rw [List.cons_append] at hb2
                      injection hb2 with hb3 _
                      rw [← hb3] at hcc2
                      rw [hr] at hcc2
                      exact Bool.false_ne_true hcc2
              · have hqeq : q ++ s = f4 ++ (w ++ (R ++ '.' :: (lit ++ (c5 ++ s)))) := by
                  rw [hqf4, hc1w, ha2R, ← h1, ha3lit]
                  simp [List.append_assoc]
                have hsome := matchIS_isSome_of_decomp f4 w R (lit ++ (c5 ++ s)) hf4 hwne hws
                  hRne hRw (Or.inl (by rw [stripCI_of_eqCI litISTables lit _ hlite]; simp))
                rw [← hqeq] at hsome
                exact hsome h
            · have hE6 : a3' ++ ('F' :: 'R' :: 'O' :: 'M' :: ' ' :: z) = lit6 ++ rest := by
                rw [← hE5, hrest0]
              rcases List.append_eq_append_iff.mp hE6 with ⟨a5, hlita, hblock4⟩ |
                ⟨c5, ha3lit, hrest4⟩
              · cases a5 with
                | nil =>
                  rw [List.append_nil] at hlita
                  have hqeq : q ++ s = f4 ++ (w ++ (R ++ '.' :: (lit6 ++ s))) := by
                    rw [hqf4, hc1w, ha2R, ← hlita, ← h1]
                    simp [List.append_assoc]
                  have hsome := matchIS_isSome_of_decomp f4 w R (lit6 ++ s) hf4 hwne hws hRne hRw
                    (Or.inr ⟨hReq, by rw [stripCI_of_eqCI litTables lit6 s hlit6e]; simp⟩)
                  rw [← hqeq] at hsome
                  exact hsome h
                | cons a50 a5' =>
                  rw [List.cons_append] at hblock4
                  injection hblock4 with hb1 hb2
                  rw [hlita] at hlit6e
                  obtain ⟨p1, p2, hp, hqa, hqb, hl⟩ := eqCI_append_split hlit6e
                  cases p2 with
                  | nil =>
                    have := eqCI_length hqb
                    simp at this
                  | cons q₀ q₂ =>
                    have hcc : charCI a50 q₀ = true := by
                      simp only [eqCI, Bool.and_eq_true] at hqb
                      exact hqb.1
                    rw [← hb1] at hcc
                    rw [tables_split_not_f hp] at hcc
                    exact Bool.false_ne_true hcc
              · have hqeq : q ++ s = f4 ++ (w ++ (R ++ '.' :: (lit6 ++ (c5 ++ s)))) := by
                  rw [hqf4, hc1w, ha2R, ← h1, ha3lit]
                  simp [List.append_assoc]
                have hsome := matchIS_isSome_of_decomp f4 w R (lit6 ++ (c5 ++ s)) hf4 hwne hws
                  hRne hRw (Or.inr ⟨hReq, by rw [stripCI_of_eqCI litTables lit6 _ hlit6e]; simp⟩)
                rw [← hqeq] at hsome
                exact hsome h
        · exact block_not_word_dot c3 z rest0
            (fun c hc => hRw c (by rw [hRa2]; simp [hc])) hblock3
      · cases c2 with
        | nil =>
          simp only [List.nil_append] at hblock2
          exact block_not_word_dot R z rest0 hRw hblock2
        | cons c20 c2' =>
          rw [List.cons_append] at hblock2
          injection hblock2 with h1 _
          have hmem := hws c20 (by rw [hwc]; simp)
          rw [← h1] at hmem
          exact absurd hmem (by decide)

theorem projChar_not_ws {c : Char} (h : isProjChar c = true) : isWsChar c = false := by
  simp only [isProjChar, decide_eq_true_eq] at h
  by_contra hws
  rw [Bool.not_eq_false] at hws
  simp only [isWsChar, decide_eq_true_eq] at hws
  rcases hws with h' | h' | h' | h' | h' | h' <;> subst h' <;> revert h <;> decide

theorem matchIS_repl_head (proj ds x : List Char) :
    matchIS (replIS proj ds ++ x) = none := by
  have hshape : replIS proj ds ++ x
      = "FROM".data ++ (' ' :: '`' :: (proj ++ (".".data ++ (ds
          ++ (".INFORMATION_SCHEMA.TABLES`".data ++ x))))) := by
    simp [replIS]
  have h1 : stripCI "FROM".data ("FROM".data ++ (' ' :: '`' :: (proj ++ (".".data ++ (ds
      ++ (".INFORMATION_SCHEMA.TABLES`".data ++ x))))))
      = some (' ' :: '`' :: (proj ++ (".".data ++ (ds
          ++ (".INFORMATION_SCHEMA.TABLES`".data ++ x))))) :=
    stripCI_of_eqCI "FROM".data "FROM".data _ (by decide)
  have hw : (' ' :: '`' :: (proj ++ (".".data ++ (ds
      ++ (".INFORMATION_SCHEMA.TABLES`".data ++ x))))).takeWhile isWsChar = [' '] := by
    simp [List.takeWhile_cons, show isWsChar ' ' = true from by decide,
      show isWsChar '`' = false from by decide]
  have htw : ('`' :: (proj ++ (".".data ++ (ds
      ++ (".INFORMATION_SCHEMA.TABLES`".data ++ x))))).takeWhile isWordChar = [] := by
    simp [List.takeWhile_cons, show isWordChar '`' = false from by decide]
  rw [hshape]
  simp only [matchIS, h1, hw, htw, List.length_cons, List.length_nil, Nat.zero_add,
    List.drop_succ_cons, List.drop_zero]
  simp

theorem replIS_drop5_not_ws (proj ds : List Char)
    (hproj : ∀ c ∈ proj, isProjChar c = true)
    (hds : ∀ c ∈ ds, isWordChar c = true) :
    ∀ c ∈ (replIS proj ds).drop 5, isWsChar c = false := by
  intro c hc
  have hsh : (replIS proj ds).drop 5
      = '`' :: (proj ++ (".".data ++ (ds ++ ".INFORMATION_SCHEMA.TABLES`".data))) := by
    simp [replIS]
  rw [hsh] at hc
  simp only [List.mem_cons, List.mem_append] at hc
  rcases hc with hc | hc | hc | hc | hc
  · subst hc; decide
  · exact projChar_not_ws (hproj c hc)
  · have : c = '.' := by simpa using hc
    subst this; decide
  · exact word_not_ws (hds c hc)
  · have hmem : c ∈ ".INFORMATION_SCHEMA.TABLES`".data := by simpa using hc
    have hall : ∀ ch ∈ ".INFORMATION_SCHEMA.TABLES`".data, isWsChar ch = false := by decide
    exact hall c hmem

theorem inert_replIS (proj ds : List Char)
    (hproj : ∀ c ∈ proj, isProjChar c = true)
    (hds : ∀ c ∈ ds, isWordChar c = true) :
    ∀ r, r <:+ replIS proj ds → r ≠ [] → ∀ x, matchIS (r ++ x) = none := by
  intro r hr hrne x
  obtain ⟨pre, hpre⟩ := hr
  cases pre with
  | nil =>
    simp only [List.nil_append] at hpre
    rw [hpre]
    exact matchIS_repl_head proj ds x
  | cons p0 pre' =>
    by_cases h5 : 5 ≤ r.length
    · rcases r with _ | ⟨a, _ | ⟨b, _ | ⟨c, _ | ⟨d, _ | ⟨e, r''⟩⟩⟩⟩⟩
      · exact absurd rfl hrne
      · simp at h5
      · simp at h5
      · simp at h5
      · simp at h5
      · have hmem : e ∈ (replIS proj ds).drop 5 := by
          rw [← hpre]
          have hsplit : (p0 :: pre') ++ a :: b :: c :: d :: e :: r''
              = ((p0 :: pre') ++ [a, b, c, d]) ++ e :: r'' := by simp
          rw [hsplit, List.drop_append_of_le_length (by simp)]
          simp
        have hnws : isWsChar e = false := replIS_drop5_not_ws proj ds hproj hds e hmem
        have hgoal : (a :: b :: c :: d :: e :: r'') ++ x
            = a :: b :: c :: d :: e :: (r'' ++ x) := by simp
        rw [hgoal]
        exact matchIS_none_mid a b c d e (r'' ++ x) hnws
    · -- r is a short suffix of the trailing ".INFORMATION_SCHEMA.TABLES`"
      have ht27 : replIS proj ds
          = ("FROM `".data ++ proj ++ ".".data ++ ds) ++ ".INFORMATION_SCHEMA.TABLES`".data := by
        simp [replIS]
      have heq2 : (p0 :: pre') ++ r
          = ("FROM `".data ++ proj ++ ".".data ++ ds) ++ ".INFORMATION_SCHEMA.TABLES`".data := by
        rw [hpre, ht27]
      rcases List.append_eq_append_iff.mp heq2 with ⟨a', hA, hB⟩ | ⟨c', hpre2, hBr⟩
      · have := congrArg List.length hB
        simp at this
        omega
      · -- hBr : ".INFORMATION_SCHEMA.TABLES`".data = c' ++ r
        have hlen27 : c'.length + r.length = 27 := by
          have := congrArg List.length hBr
          simpa using this.symm
        have hrd : (".INFORMATION_SCHEMA.TABLES`".data).drop c'.length = r := by
          rw [hBr]
          exact List.drop_left c' r
        have hrpos : 1 ≤ r.length := List.length_pos.mpr hrne
        have hrle : r.length ≤ 4 := by omega
        interval_cases hrl : r.length
        · have hc26 : c'.length = 26 := by omega
          rw [hc26] at hrd
          have hconc : (".INFORMATION_SCHEMA.TABLES`".data).drop 26 = ['`'] := by decide
          rw [hconc] at hrd
          rw [← hrd]
          exact matchIS_none_of_fstNot '`' x (by decide)
        · have hc25 : c'.length = 25 := by omega
          rw [hc25] at hrd
          have hconc : (".INFORMATION_SCHEMA.TABLES`".data).drop 25 = ['S', '`'] := by decide
          rw [hconc] at hrd
          rw [← hrd]
          exact matchIS_none_of_fstNot 'S' (['`'] ++ x) (by decide)
        · have hc24 : c'.length = 24 := by omega
          rw [hc24] at hrd
          have hconc : (".INFORMATION_SCHEMA.TABLES`".data).drop 24 = ['E', 'S', '`'] := by decide
          rw [hconc] at hrd
          rw [← hrd]
          exact matchIS_none_of_fstNot 'E' (['S', '`'] ++ x) (by decide)
        · have hc23 : c'.length = 23 := by omega
          rw [hc23] at hrd
          have hconc : (".INFORMATION_SCHEMA.TABLES`".data).drop 23
              = ['L', 'E', 'S', '`'] := by decide
          rw [hconc] at hrd
          rw [← hrd]
          exact matchIS_none_of_fstNot 'L' (['E', 'S', '`'] ++ x) (by decide)

theorem suffix_append_cases {r A B : List Char} (h : r <:+ A ++ B) :
    r <:+ B ∨ ∃ r', r = r' ++ B ∧ r' <:+ A := by
  obtain ⟨pre, hpre⟩ := h
  rcases List.append_eq_append_iff.mp hpre with ⟨a', hA, hB⟩ | ⟨c', hpre2, hBr⟩
  · exact Or.inr ⟨a', hB, ⟨pre, hA.symm⟩⟩
  · exact Or.inl ⟨c', hBr.symm⟩

theorem suffix_append_right {q p : List Char} (m : List Char) (h : q <:+ p) :
    q ++ m <:+ p ++ m := by
  obtain ⟨pre, hpre⟩ := h
  exact ⟨pre, by rw [← List.append_assoc, hpre]⟩

theorem suffix_singleton {q : List Char} {c : Char} (h : q <:+ [c]) (hne : q ≠ []) :
    q = [c] := by
  obtain ⟨pre, hpre⟩ := h
  cases pre with
  | nil => simpa using hpre
  | cons x xs =>
    have := congrArg List.length hpre
    simp at this
    obtain ⟨_, h2⟩ := this
    exact absurd h2 hne

theorem qtp_inert_append (proj p t : List Char)
    (hin : ∀ r, r <:+ p → r ≠ [] → ∀ x, matchIS (r ++ x) = none) :
    qualifyTablePath proj (p ++ t) = (qualifyTablePath proj t).map (fun r => p ++ r) := by
  induction p with
  | nil =>
    simp only [List.nil_append]
    cases h : qualifyTablePath proj t <;> simp [Except.map]
  | cons c p' ih =>
    have hm : matchIS (c :: (p' ++ t)) = none := by
      have := hin (c :: p') (List.suffix_refl _) (by simp) t
      simpa using this
    rw [List.cons_append, qtp_skip proj c (p' ++ t) hm,
      ih (fun r hr hrne x => hin r (hr.trans (List.suffix_cons c p')) hrne x)]
    cases qualifyTablePath proj t <;> simp [Except.map]

theorem qtp_preserve (proj : List Char) :
    ∀ fuel s t, s.length ≤ fuel → qualifyAux proj fuel s = .ok t →
      (∀ ch ∈ proj, isProjChar ch = true) →
      ∀ p, (∀ q, q <:+ p → q ≠ [] → matchIS (q ++ s) = none) →
        ∀ q, q <:+ p → q ≠ [] → matchIS (q ++ t) = none := by
  intro fuel
  induction fuel with
  | zero =>
    intro s t hlen hok _ p hp q hq hqne
    have hs : s = [] := List.length_eq_zero.mp (Nat.le_zero.mp hlen)
    subst hs
    have ht : t = [] := by
      simp only [qualifyAux] at hok
      exact (Except.ok.inj hok).symm
    subst ht
    exact hp q hq hqne
  | succ n ih =>
    intro s t hlen hok hproj p hp q hq hqne
    cases s with
    | nil =>
      have ht : t = [] := by
        simp only [qualifyAux] at hok
        exact (Except.ok.inj hok).symm
      subst ht
      exact hp q hq hqne
    | cons c cs =>
      simp only [qualifyAux] at hok
      cases hm : matchIS (c :: cs) with
      | none =>
        rw [hm] at hok
        cases hq1 : qualifyAux proj n cs with
        | error e => rw [hq1] at hok; simp [Except.map] at hok
        | ok t₁ =>
          rw [hq1] at hok
          simp only [Except.map] at hok
          obtain rfl : c :: t₁ = t := Except.ok.inj hok
          have hlen' : cs.length ≤ n := by simp at hlen; omega
          have hp' : ∀ q', q' <:+ p ++ [c] → q' ≠ [] → matchIS (q' ++ cs) = none := by
            intro q' hq' hq'ne
            rcases suffix_append_cases hq' with h1 | ⟨r', hr', hr'A⟩
            · have hq'c : q' = [c] := suffix_singleton h1 hq'ne
              subst hq'c
              simpa using hm
            · by_cases hr'ne : r' = []
              · subst hr'ne
                simp only [List.nil_append] at hr'
                subst hr'
                simpa using hm
              · have := hp r' hr'A hr'ne
                rw [hr']
                simpa [List.append_assoc] using this
          have hcons := ih cs t₁ hlen' hq1 hproj (p ++ [c]) hp' (q ++ [c])
            (suffix_append_right [c] hq) (by simp)
          simpa [List.append_assoc] using hcons
      | some v =>
        obtain ⟨d, rest⟩ := v
        cases d with
        | none => rw [hm] at hok; simp at hok
        | some ds =>
          rw [hm] at hok
          dsimp only at hok
          cases hq1 : qualifyAux proj n rest with
          | error e => rw [hq1] at hok; simp [Except.map] at hok
          | ok t₁ =>
            rw [hq1] at hok
            simp only [Except.map] at hok
            obtain rfl : replIS proj ds ++ t₁ = t := Except.ok.inj hok
            have hlt := matchIS_length hm
            have hlen' : rest.length ≤ n := by simp at hlen hlt; omega
            have hds : ∀ ch ∈ ds, isWordChar ch = true := by
              obtain ⟨f4, w, R, rest0, heq, hf4, hwne, hws, hRne, hRw, hpath⟩ :=
                matchIS_some_decomp hm
              rcases hpath with ⟨hd, _⟩ | ⟨hd, _⟩
              · obtain rfl : ds = R := Option.some.inj hd
                exact hRw
              · exact absurd hd (by simp)
            have hblock : replIS proj ds ++ t₁
                = 'F' :: 'R' :: 'O' :: 'M' :: ' ' :: ('`' :: (proj ++ (".".data ++ (ds
                    ++ (".INFORMATION_SCHEMA.TABLES`".data ++ t₁))))) := by
              simp [replIS]
            have hblockr : replIS proj ds ++ rest
                = 'F' :: 'R' :: 'O' :: 'M' :: ' ' :: ('`' :: (proj ++ (".".data ++ (ds
                    ++ (".INFORMATION_SCHEMA.TABLES`".data ++ rest))))) := by
              simp [replIS]
            have hp' : ∀ q', q' <:+ p ++ replIS proj ds → q' ≠ [] →
                matchIS (q' ++ rest) = none := by
              intro q' hq' hq'ne
              rcases suffix_append_cases hq' with h1 | ⟨r', hr', hr'A⟩
              · exact inert_replIS proj ds hproj hds q' h1 hq'ne rest
              · by_cases hr'ne : r' = []
                · subst hr'ne
                  simp only [List.nil_append] at hr'
                  subst hr'
                  exact inert_replIS proj ds hproj hds (replIS proj ds)
                    (List.suffix_refl _) hq'ne rest
                · have hcross := matchIS_cross r' (c :: cs)
                    ('`' :: (proj ++ (".".data ++ (ds
                      ++ (".INFORMATION_SCHEMA.TABLES`".data ++ rest)))))
                    hr'ne (hp r' hr'A hr'ne)
                  rw [hr', List.append_assoc, hblockr]
                  exact hcross
            have hcons := ih rest t₁ hlen' hq1 hproj (p ++ replIS proj ds) hp'
              (q ++ replIS proj ds) (suffix_append_right _ hq)
              (by simp [replIS])
            simpa [List.append_assoc] using hcons

theorem qtp_idem_aux (proj : List Char) (hproj : ∀ ch ∈ proj, isProjChar ch = true) :
    ∀ fuel s t, s.length ≤ fuel → qualifyAux proj fuel s = .ok t →
      qualifyTablePath proj t = .ok t := by
  intro fuel
  induction fuel with
  | zero =>
    intro s t hlen hok
    have hs : s = [] := List.length_eq_zero.mp (Nat.le_zero.mp hlen)
    subst hs
    have ht : t = [] := by
      simp only [qualifyAux] at hok
      exact (Except.ok.inj hok).symm
    subst ht
    rfl
  | succ n ih =>
    intro s t hlen hok
    cases s with
    | nil =>
      have ht : t = [] := by
        simp only [qualifyAux] at hok
        exact (Except.ok.inj hok).symm
      subst ht
      rfl
    | cons c cs =>
      simp only [qualifyAux] at hok
      cases hm : matchIS (c :: cs) with
      | none =>
        rw [hm] at hok
        cases hq1 : qualifyAux proj n cs with
        | error e => rw [hq1] at hok; simp [Except.map] at hok
        | ok t₁ =>
          rw [hq1] at hok
          simp only [Except.map] at hok
          obtain rfl : c :: t₁ = t := Except.ok.inj hok
          have hlen' : cs.length ≤ n := by simp at hlen; omega
          have hfix := ih cs t₁ hlen' hq1
          have hnone : matchIS (c :: t₁) = none := by
            have hpres := qtp_preserve proj n cs t₁ hlen' hq1 hproj [c]
              (fun q hqs hqne => by
                have hqc : q = [c] := suffix_singleton hqs hqne
                subst hqc
                simpa using hm)
              [c] (List.suffix_refl _) (by simp)
            simpa using hpres
          rw [qtp_skip proj c t₁ hnone, hfix]
          rfl
      | some v =>
        obtain ⟨d, rest⟩ := v
        cases d with
        | none => rw [hm] at hok; simp at hok
        | some ds =>
          rw [hm] at hok
          dsimp only at hok
          cases hq1 : qualifyAux proj n rest with
          | error e => rw [hq1] at hok; simp [Except.map] at hok
          | ok t₁ =>
            rw [hq1] at hok
            simp only [Except.map] at hok
            obtain rfl : replIS proj ds ++ t₁ = t := Except.ok.inj hok
            have hlt := matchIS_length hm
            have hlen' : rest.length ≤ n := by simp at hlen hlt; omega
            have hfix := ih rest t₁ hlen' hq1
            have hds : ∀ ch ∈ ds, isWordChar ch = true := by
              obtain ⟨f4, w, R, rest0, heq, hf4, hwne, hws, hRne, hRw, hpath⟩ :=
                matchIS_some_decomp hm
              rcases hpath with ⟨hd, _⟩ | ⟨hd, _⟩
              · obtain rfl : ds = R := Option.some.inj hd
                exact hRw
              · exact absurd hd (by simp)
            rw [qtp_inert_append proj (replIS proj ds) t₁
              (inert_replIS proj ds hproj hds), hfix]
            rfl

/-- Claim C4: the INFORMATION_SCHEMA qualification rewrite is idempotent.
For every SQL string on which `qualifyTablePath` succeeds (with a valid
project id, whose characters are restricted to `[a-z0-9-]` by
`validateConfig`), applying the rewrite a second time to the rewritten
output returns it unchanged: the backtick-quoted qualified form matches
no further occurrence of the pattern and is not re-qualified. -/
theorem infoschema_rewrite_idempotent (proj sql out : List Char)
    (hproj : ∀ ch ∈ proj, isProjChar ch = true)
    (h : qualifyTablePath proj sql = .ok out) :
    qualifyTablePath proj out = .ok out :=
  qtp_idem_aux proj hproj sql.length sql out le_rfl h

theorem infoschema_rewrite_idempotent_witness :
    qualifyTablePath "my-project".data "SELECT * FROM mydata.INFORMATION_SCHEMA.TABLES".data
      = .ok "SELECT * FROM `my-project.mydata.INFORMATION_SCHEMA.TABLES`".data
    ∧ qualifyTablePath "my-project".data
        "SELECT * FROM `my-project.mydata.INFORMATION_SCHEMA.TABLES`".data
      = .ok "SELECT * FROM `my-project.mydata.INFORMATION_SCHEMA.TABLES`".data := by
  constructor
  · rfl
  · exact infoschema_rewrite_idempotent "my-project".data
      "SELECT * FROM mydata.INFORMATION_SCHEMA.TABLES".data
      "SELECT * FROM `my-project.mydata.INFORMATION_SCHEMA.TABLES`".data
      (by decide) (by rfl)

theorem foldl_add_eq_sum (l : List ℚ) (a : ℚ) : l.foldl (· + ·) a = a + l.sum := by
  induction l generalizing a with
  | nil => simp
  | cons x xs ih =>
    simp only [List.foldl_cons, List.sum_cons, ih]
    ring

theorem foldl_min_mem (v : ℚ) (vs : List ℚ) : vs.foldl min v ∈ v :: vs := by
  induction vs generalizing v with
  | nil => simp
  | cons x xs ih =>
    simp only [List.foldl_cons]
    have hm := ih (min v x)
    rcases List.mem_cons.mp hm with h | h
    · rcases min_choice v x with hc | hc <;> rw [hc] at h ⊢ <;> simp [h]
    · simp [h]

theorem foldl_min_le_init (v : ℚ) (vs : List ℚ) : vs.foldl min v ≤ v := by
  induction vs generalizing v with
  | nil => simp
  | cons x xs ih => exact le_trans (ih (min v x)) (min_le_left v x)

theorem foldl_min_le (v : ℚ) (vs : List ℚ) : ∀ q ∈ v :: vs, vs.foldl min v ≤ q := by
  induction vs generalizing v with
  | nil =>
    intro q hq
    have hqv : q = v := by simpa using hq
    subst hqv
    simp
  | cons x xs ih =>
    intro q hq
    simp only [List.foldl_cons]
    rcases List.mem_cons.mp hq with h | h
    · subst h
      exact le_trans (foldl_min_le_init (min q x) xs) (min_le_left q x)
    · rcases List.mem_cons.mp h with h' | h'
      · subst h'
        exact le_trans (foldl_min_le_init (min v q) xs) (min_le_right v q)
      · exact ih (min v x) q (List.mem_cons_of_mem _ h')

theorem foldl_max_mem (v : ℚ) (vs : List ℚ) : vs.foldl max v ∈ v :: vs := by
  induction vs generalizing v with
  | nil => simp
  | cons x xs ih =>
    simp only [List.foldl_cons]
    have hm := ih (max v x)
    rcases List.mem_cons.mp hm with h | h
    · rcases max_choice v x with hc | hc <;> rw [hc] at h ⊢ <;> simp [h]
    · simp [h]

theorem foldl_max_ge_init (v : ℚ) (vs : List ℚ) : v ≤ vs.foldl max v := by
  induction vs generalizing v with
  | nil => simp
  | cons x xs ih => exact le_trans (le_max_left v x) (ih (max v x))

theorem foldl_max_ge (v : ℚ) (vs : List ℚ) : ∀ q ∈ v :: vs, q ≤ vs.foldl max v := by
  induction vs generalizing v with
  | nil =>
    intro q hq
    have hqv : q = v := by simpa using hq
    subst hqv
    simp
  | cons x xs ih =>
    intro q hq
    simp only [List.foldl_cons]
    rcases List.mem_cons.mp hq with h | h
    · subst h
      exact le_trans (le_max_left q x) (foldl_max_ge_init (max q x) xs)
    · rcases List.mem_cons.mp h with h' | h'
      · subst h'
        exact le_trans (le_max_right v q) (foldl_max_ge_init (max v q) xs)
      · exact ih (max v x) q (List.mem_cons_of_mem _ h')

theorem insAsc_perm (x : ℚ) (l : List ℚ) : List.Perm (insAsc x l) (x :: l) := by
  induction l with
  | nil => exact List.Perm.refl _
  | cons y ys ih =>
    simp only [insAsc]
    by_cases h : x < y
    · rw [if_pos h]
    · rw [if_neg h]
      exact (List.Perm.cons y ih).trans (List.Perm.swap x y ys)

theorem sortAsc_perm (l : List ℚ) : List.Perm (sortAsc l) l := by
  induction l with
  | nil => exact List.Perm.refl _
  | cons x xs ih => exact (insAsc_perm x (sortAsc xs)).trans (List.Perm.cons x ih)

theorem insAsc_sorted (x : ℚ) (l : List ℚ) (h : l.Sorted (· ≤ ·)) :
    (insAsc x l).Sorted (· ≤ ·) := by
  induction l with
  | nil => simp [insAsc]
  | cons y ys ih =>
    simp only [insAsc]
    by_cases hc : x < y
    · rw [if_pos hc]
      rw [List.sorted_cons]
      refine ⟨?_, h⟩
      intro b hb
      rcases List.mem_cons.mp hb with h' | h'
      · subst h'
        exact le_of_lt hc
      · exact le_trans (le_of_lt hc) (List.rel_of_sorted_cons h b h')
    · rw [if_neg hc]
      have hys : ys.Sorted (· ≤ ·) := List.Sorted.of_cons h
      rw [List.sorted_cons]
      refine ⟨?_, ih hys⟩
      intro b hb
      have hbx : b ∈ x :: ys := (insAsc_perm x ys).mem_iff.mp hb
      rcases List.mem_cons.mp hbx with h' | h'
      · subst h'
        exact le_of_not_lt hc
      · exact List.rel_of_sorted_cons h b h'

theorem sortAsc_sorted (l : List ℚ) : (sortAsc l).Sorted (· ≤ ·) := by
  induction l with
  | nil => simp [sortAsc]
  | cons x xs ih => exact insAsc_sorted x (sortAsc xs) ih

/-- Claim C5: for every numeric column of a nonempty row array whose
cells are numbers, nulls or NaN, with at least one surviving value, the
Summarizer first drops the null and NaN values across all rows and then
computes minimum, maximum, arithmetic mean (sum over count), sum, and
the median by sorting ascending and averaging the two middle elements
for even count or taking the middle element for odd count. -/
theorem summarizer_statistics (rows : List Row) (col : List Char) (rec : StatRec)
    (_hnum : col ∈ numericColumnsOf rows)
    (hclean : ∀ r ∈ rows, numLike (getProp r col) = true)
    (h : statsOf rows col = some rec) :
    filteredVals rows col
      = (rows.map (fun r => getProp r col)).filter
          (fun v => (v != Value.vNull) && (v != Value.vNaN))
    ∧ ((filteredVals rows col).map toQ ≠ []
      ∧ rec.sum = ((filteredVals rows col).map toQ).sum
      ∧ rec.avg = ((filteredVals rows col).map toQ).sum
          / ((((filteredVals rows col).map toQ).length : ℚ))
      ∧ rec.min ∈ (filteredVals rows col).map toQ
      ∧ (∀ q ∈ (filteredVals rows col).map toQ, rec.min ≤ q)
      ∧ rec.max ∈ (filteredVals rows col).map toQ
      ∧ (∀ q ∈ (filteredVals rows col).map toQ, q ≤ rec.max)
      ∧ (∀ sorted : List ℚ, List.Perm ((filteredVals rows col).map toQ) sorted →
          sorted.Sorted (· ≤ ·) →
          rec.median = (if sorted.length % 2 = 0
            then (sorted.getD (sorted.length / 2 - 1) 0
              + sorted.getD (sorted.length / 2) 0) / 2
            else sorted.getD (sorted.length / 2) 0))) := by
  constructor
  · unfold filteredVals
    refine List.filter_congr ?_
    intro v hv
    obtain ⟨r, hr, hrv⟩ := List.mem_map.mp hv
    have hnl := hclean r hr
    rw [hrv] at hnl
    cases v with
    | vNum q => rfl
    | vNaN => rfl
    | vNull => rfl
    | vStr s => simp [numLike] at hnl
    | vBool b => simp [numLike] at hnl
    | vUndefined => simp [numLike] at hnl
    | vOther => simp [numLike] at hnl
  · unfold statsOf at h
    cases hv : (filteredVals rows col).map toQ with
    | nil => rw [hv] at h; exact absurd h (by simp)
    | cons v vs =>
      rw [hv] at h
      simp only at h
      obtain rfl : _ = rec := Option.some.inj h
      refine ⟨by simp, ?_, ?_, ?_, ?_, ?_, ?_, ?_⟩
      · show (v :: vs).foldl (· + ·) 0 = (v :: vs).sum
        rw [foldl_add_eq_sum]
        ring
      · show (v :: vs).foldl (· + ·) 0 / (((v :: vs).length : ℚ))
          = (v :: vs).sum / (((v :: vs).length : ℚ))
        rw [foldl_add_eq_sum]
        ring_nf
      · exact foldl_min_mem v vs
      · exact foldl_min_le v vs
      · exact foldl_max_mem v vs
      · exact foldl_max_ge v vs
      · intro sorted hperm hsorted
        have hperm2 : List.Perm (sortAsc (v :: vs)) sorted :=
          (sortAsc_perm (v :: vs)).trans hperm
        have heq : sortAsc (v :: vs) = sorted :=
          List.eq_of_perm_of_sorted hperm2 (sortAsc_sorted (v :: vs)) hsorted
        rw [← heq]

theorem summarizer_statistics_witness :
    statsOf [[("a".data, Value.vNum 1)], [("a".data, Value.vNum 2)],
        [("a".data, Value.vNum 3)], [("a".data, Value.vNum 4)]] "a".data
      = some ⟨1, 4, 5/2, 5/2, 10⟩
    ∧ filteredVals [[("a".data, Value.vNum 1)], [("a".data, Value.vNum 2)],
        [("a".data, Value.vNum 3)], [("a".data, Value.vNum 4)]] "a".data
      = ([[("a".data, Value.vNum 1)], [("a".data, Value.vNum 2)],
          [("a".data, Value.vNum 3)], [("a".data, Value.vNum 4)]].map
            (fun r => getProp r "a".data)).filter
          (fun v => (v != Value.vNull) && (v != Value.vNaN)) :=
  ⟨by
      simp only [statsOf, filteredVals, getProp, toQ, isNaNJS, sortAsc, insAsc, List.map,
        List.filter, List.find?, List.foldl, List.foldr, List.length, List.getD, List.get?]
      norm_num,
    (summarizer_statistics _ "a".data ⟨1, 4, 5/2, 5/2, 10⟩ (by decide) (by decide)
      (by
        simp only [statsOf, filteredVals, getProp, toQ, isNaNJS, sortAsc, insAsc, List.map,
          List.filter, List.find?, List.foldl, List.foldr, List.length, List.getD, List.get?]
        norm_num)).1⟩

theorem filteredVals_nil_of_nullNaN (rows : List Row) (col : List Char)
    (hnull : ∀ r ∈ rows, getProp r col = Value.vNull ∨ getProp r col = Value.vNaN) :
    filteredVals rows col = [] := by
  unfold filteredVals
  rw [List.filter_eq_nil]
  intro v hv
  obtain ⟨r, hr, hrv⟩ := List.mem_map.mp hv
  rcases hnull r hr with h | h <;> rw [h] at hrv <;> subst hrv <;> decide

theorem statsOf_none_of_nullNaN (rows : List Row) (col : List Char)
    (hnull : ∀ r ∈ rows, getProp r col = Value.vNull ∨ getProp r col = Value.vNaN) :
    statsOf rows col = none := by
  unfold statsOf
  rw [filteredVals_nil_of_nullNaN rows col hnull]
  rfl

theorem alookup_filterMap_none {β : Type} (cols : List (List Char))
    (h : List Char → Option (List Char × β)) (col : List Char)
    (hkey : ∀ c p, h c = some p → p.1 = c)
    (hcol : h col = none) :
    alookup (cols.filterMap h) col = none := by
  induction cols with
  | nil => rfl
  | cons c cs ih =>
    rw [List.filterMap_cons]
    cases hc : h c with
    | none => exact ih
    | some p =>
      obtain ⟨p1, p2⟩ := p
      have hp1 : p1 = c := hkey c (p1, p2) hc
      subst hp1
      have hne : p1 ≠ col := by
        intro hp
        subst hp
        rw [hc] at hcol
        exact absurd hcol (by simp)
      simp only [alookup, if_neg hne]
      exact ih

/-- Claim C10: a numeric-typed column whose values are all null or NaN
across every row is omitted from the numeric-statistics report
entirely and is skipped in each focused section (trends, outliers,
distribution), so no statistic is ever computed by dividing by its
zero count. -/
theorem summarizer_skips_empty_column (rows : List Row) (col : List Char)
    (_hnum : col ∈ numericColumnsOf rows)
    (hnull : ∀ r ∈ rows, getProp r col = Value.vNull ∨ getProp r col = Value.vNaN) :
    statsOf rows col = none
    ∧ alookup (statsMap rows) col = none
    ∧ alookup (trendsSection rows) col = none
    ∧ alookup (outliersSection rows) col = none
    ∧ alookup (distributionSection rows) col = none := by
  have hs : statsOf rows col = none := statsOf_none_of_nullNaN rows col hnull
  refine ⟨hs, ?_, ?_, ?_, ?_⟩
  · refine alookup_filterMap_none _ _ col ?_ ?_
    · intro c p hc
      obtain ⟨st, _, hpair⟩ := Option.map_eq_some'.mp hc
      rw [← hpair]
    · rw [hs]; rfl
  · refine alookup_filterMap_none _ _ col ?_ ?_
    · intro c p hc
      obtain ⟨st, _, hpair⟩ := Option.map_eq_some'.mp hc
      rw [← hpair]
    · rw [hs]; rfl
  · refine alookup_filterMap_none _ _ col ?_ ?_
    · intro c p hc
      obtain ⟨st, _, hpair⟩ := Option.map_eq_some'.mp hc
      rw [← hpair]
    · rw [hs]; rfl
  · refine alookup_filterMap_none _ _ col ?_ ?_
    · intro c p hc
      obtain ⟨st, _, hpair⟩ := Option.map_eq_some'.mp hc
      rw [← hpair]
    · rw [hs]; rfl

theorem summarizer_skips_empty_column_witness :
    statsOf [[("x".data, Value.vNaN)], [("x".data, Value.vNull)]] "x".data = none
    ∧ alookup (statsMap [[("x".data, Value.vNaN)], [("x".data, Value.vNull)]]) "x".data
      = none :=
  ⟨(summarizer_skips_empty_column [[("x".data, Value.vNaN)], [("x".data, Value.vNull)]]
      "x".data (by decide) (by decide)).1,
   (summarizer_skips_empty_column [[("x".data, Value.vNaN)], [("x".data, Value.vNull)]]
      "x".data (by decide) (by decide)).2.1⟩

theorem bumpCount_lookup (m : List (List Char × Nat)) (key k : List Char) :
    alookup (bumpCount m key) k =
      if k = key then some ((alookup m k).getD 0 + 1) else alookup m k := by
  induction m with
  | nil =>
    simp only [bumpCount, alookup]
    by_cases h : k = key
    · subst h; simp
    · have h' : ¬ key = k := fun hh => h hh.symm
      simp [h, h']
  | cons p rest ih =>
    obtain ⟨a, n⟩ := p
    by_cases ha : a = key
    · subst ha
      simp only [bumpCount, if_pos rfl, alookup]
      by_cases h1 : a = k
      · subst h1
        simp
      · have h2 : ¬ k = a := fun hh => h1 hh.symm
        simp [h1, h2]
    · simp only [bumpCount, if_neg ha, alookup, ih]
      by_cases h1 : a = k
      · have h2 : ¬ k = key := fun hh => ha (h1.trans hh)
        simp [h1, h2]
      · simp [h1]

theorem bumpCount_lookup_self (m : List (List Char × Nat)) (key : List Char) :
    alookup (bumpCount m key) key = some ((alookup m key).getD 0 + 1) := by
  rw [bumpCount_lookup]
  simp

theorem bumpCount_lookup_ne (m : List (List Char × Nat)) (key k : List Char)
    (h : k ≠ key) : alookup (bumpCount m key) k = alookup m k := by
  rw [bumpCount_lookup, if_neg h]

theorem valueMapStep_eq (col : List Char) (m : List (List Char × Nat)) (r : Row) :
    valueMapStep col m r =
      if getProp r col = Value.vNull ∨ getProp r col = Value.vUndefined then m
      else bumpCount m (jsKeyOf (getProp r col)) := by
  unfold valueMapStep
  cases hv : getProp r col <;> simp [hv]

theorem valueMap_fold_lookup (rows : List Row) (col key : List Char)
    (m : List (List Char × Nat)) :
    alookup (rows.foldl (valueMapStep col) m) key =
      if rows.countP (catCountP col key) = 0 then alookup m key
      else some ((alookup m key).getD 0 + rows.countP (catCountP col key)) := by
  induction rows generalizing m with
  | nil => simp
  | cons r rest ih =>
    rw [List.foldl_cons, ih, valueMapStep_eq, List.countP_cons]
    by_cases hnull : getProp r col = Value.vNull ∨ getProp r col = Value.vUndefined
    · rw [if_pos hnull]
      have hp : catCountP col key r = false := by
        unfold catCountP
        apply decide_eq_false
        rintro ⟨hA, hB, -⟩
        rcases hnull with h | h
        · exact hA h
        · exact hB h
      rw [hp]
      have hz : (if (false = true) then 1 else 0) = 0 := rfl
      rw [hz, Nat.add_zero]
    · rw [if_neg hnull]
      push_neg at hnull
      by_cases hk : jsKeyOf (getProp r col) = key
      · have hp : catCountP col key r = true := by
          unfold catCountP
          exact decide_eq_true ⟨hnull.1, hnull.2, hk⟩
        rw [hk, hp, bumpCount_lookup_self]
        have ho : (if (true = true) then 1 else 0) = 1 := rfl
        rw [ho]
        have h1 : ¬ (rest.countP (catCountP col key) + 1 = 0) := Nat.succ_ne_zero _
        rw [if_neg h1]
        by_cases h0 : rest.countP (catCountP col key) = 0
        · rw [if_pos h0, h0, Nat.zero_add]
        · rw [if_neg h0]
          simp only [Option.getD_some]
          congr 1
          omega
      · have hp : catCountP col key r = false := by
          unfold catCountP
          apply decide_eq_false
          rintro ⟨-, -, hC⟩
          exact hk hC
        have hne : key ≠ jsKeyOf (getProp r col) := fun hh => hk hh.symm
        rw [hp, bumpCount_lookup_ne _ _ _ hne]
        have hz : (if (false = true) then 1 else 0) = 0 := rfl
        rw [hz, Nat.add_zero]

theorem insDesc_perm (x : List Char × Nat) (l : List (List Char × Nat)) :
    List.Perm (insDesc x l) (x :: l) := by
  induction l with
  | nil => exact List.Perm.refl _
  | cons y ys ih =>
    simp only [insDesc]
    by_cases h : y.2 ≤ x.2
    · rw [if_pos h]
    · rw [if_neg h]
      exact (List.Perm.cons y ih).trans (List.Perm.swap x y ys)

theorem sortDesc_perm (l : List (List Char × Nat)) :
    List.Perm (sortDescByCount l) l := by
  induction l with
  | nil => exact List.Perm.refl _
  | cons x xs ih => exact (insDesc_perm x (sortDescByCount xs)).trans (List.Perm.cons x ih)

theorem insDesc_sorted (x : List Char × Nat) (l : List (List Char × Nat))
    (h : l.Sorted (fun a b => b.2 ≤ a.2)) :
    (insDesc x l).Sorted (fun a b => b.2 ≤ a.2) := by
  induction l with
  | nil => simp [insDesc]
  | cons y ys ih =>
    simp only [insDesc]
    by_cases hc : y.2 ≤ x.2
    · rw [if_pos hc]
      rw [List.sorted_cons]
      refine ⟨?_, h⟩
      intro b hb
      rcases List.mem_cons.mp hb with h' | h'
      · subst h'
        exact hc
      · exact le_trans (List.rel_of_sorted_cons h b h') hc
    · rw [if_neg hc]
      have hys : ys.Sorted (fun a b => b.2 ≤ a.2) := List.Sorted.of_cons h
      rw [List.sorted_cons]
      refine ⟨?_, ih hys⟩
      intro b hb
      have hbx : b ∈ x :: ys := (insDesc_perm x ys).mem_iff.mp hb
      rcases List.mem_cons.mp hbx with h' | h'
      · subst h'
        exact le_of_not_le hc
      · exact List.rel_of_sorted_cons h b h'

theorem sortDesc_sorted (l : List (List Char × Nat)) :
    (sortDescByCount l).Sorted (fun a b => b.2 ≤ a.2) := by
  induction l with
  | nil => simp [sortDescByCount]
  | cons x xs ih => exact insDesc_sorted x (sortDescByCount xs) ih

theorem insDesc_filter (x : List Char × Nat) (l : List (List Char × Nat)) (n : Nat) :
    (insDesc x l).filter (fun kc => decide (kc.2 = n))
      = if x.2 = n then x :: l.filter (fun kc => decide (kc.2 = n))
        else l.filter (fun kc => decide (kc.2 = n)) := by
  induction l with
  | nil =>
    simp only [insDesc, List.filter]
    by_cases h : x.2 = n
    · simp [h]
    · simp [h]
  | cons y ys ih =>
    simp only [insDesc]
    by_cases hc : y.2 ≤ x.2
    · rw [if_pos hc, List.filter_cons]
      by_cases h : x.2 = n
      · simp [h]
      · simp [h]
    · rw [if_neg hc, List.filter_cons, ih, List.filter_cons]
      by_cases h : x.2 = n
      · have hy : ¬ y.2 = n := by omega
        simp [h, hy]
      · by_cases hy : y.2 = n
        · simp [h, hy]
        · simp [h, hy]

theorem sortDesc_filter (l : List (List Char × Nat)) (n : Nat) :
    (sortDescByCount l).filter (fun kc => decide (kc.2 = n))
      = l.filter (fun kc => decide (kc.2 = n)) := by
  induction l with
  | nil => rfl
  | cons x xs ih =>
    show (insDesc x (sortDescByCount xs)).filter _ = _
    rw [insDesc_filter, List.filter_cons]
    by_cases h : x.2 = n
    · rw [if_pos h, ih, if_pos (by simp [h])]
    · rw [if_neg h, ih, if_neg (by simp [h])]

theorem alookup_map_self {α : Type} (l : List (List Char)) (f : List Char → α)
    (col : List Char) (h : col ∈ l) :
    alookup (l.map (fun c => (c, f c))) col = some (f col) := by
  induction l with
  | nil => cases h
  | cons c cs ih =>
    rw [List.map_cons]
    by_cases hc : c = col
    · subst hc
      simp [alookup]
    · rcases List.mem_cons.mp h with h' | h'
      · exact absurd h'.symm hc
      · simp only [alookup, if_neg hc]
        exact ih h'

theorem rat_floor_eq_intFloor (q : ℚ) : q.floor = ⌊q⌋ := by
  rw [Rat.floor_def', Rat.floor_def]

theorem toFixed2_eval (q : ℚ) (n : Nat) (h : (q * 100 + 1 / 2).floor = (n : ℤ)) :
    toFixed2 q = (Nat.repr (n / 100)).data ++ '.' ::
      (if n % 100 < 10 then '0' :: (Nat.repr (n % 100)).data
       else (Nat.repr (n % 100)).data) := by
  simp only [toFixed2, h, Int.toNat_natCast]

/-- Claim C6 is refuted for boolean columns: the source's filter is
`columnTypes[col] === 'string'`, and a column whose first-row value is
a boolean is typed `boolean`, not `string`, so an all-boolean table
gets an empty categorical analysis instead of a summary of its
boolean column. -/
theorem summarizer_categorical_counterexample :
    typeTag (getProp [("b".data, Value.vBool true)] "b".data) = TypeTag.tBool
    ∧ catAnalysisOf
        [[("b".data, Value.vBool true)], [("b".data, Value.vBool false)]] = [] :=
  ⟨rfl, rfl⟩

theorem idxEntries_map_snd (m : List (List Char × Nat)) :
    (idxEntries m).map Prod.snd = m.filter (fun kv => (keyIndexVal kv.1).isSome) := by
  induction m with
  | nil => rfl
  | cons kv rest ih =>
    by_cases hk : (keyIndexVal kv.1).isSome = true
    · obtain ⟨n, hn⟩ := Option.isSome_iff_exists.mp hk
      have hstep : idxEntries (kv :: rest) = (n, kv) :: idxEntries rest := by
        unfold idxEntries
        exact List.filterMap_cons_some (by rw [hn]; rfl)
      rw [hstep, List.map_cons, ih, List.filter_cons, if_pos hk]
    · have hnone : keyIndexVal kv.1 = none := by
        cases h : keyIndexVal kv.1 with
        | none => rfl
        | some n => rw [h] at hk; exact absurd rfl hk
      have hstep : idxEntries (kv :: rest) = idxEntries rest := by
        unfold idxEntries
        exact List.filterMap_cons_none (by rw [hnone]; rfl)
      rw [hstep, ih, List.filter_cons, if_neg hk]

theorem insAscN_perm (x : Nat × (List Char × Nat)) (l : List (Nat × (List Char × Nat))) :
    List.Perm (insAscN x l) (x :: l) := by
  induction l with
  | nil => exact List.Perm.refl _
  | cons y ys ih =>
    simp only [insAscN]
    by_cases h : x.1 < y.1
    · rw [if_pos h]
    · rw [if_neg h]
      exact (List.Perm.cons y ih).trans (List.Perm.swap x y ys)

theorem sortAscN_perm (l : List (Nat × (List Char × Nat))) :
    List.Perm (sortAscN l) l := by
  induction l with
  | nil => exact List.Perm.refl _
  | cons x xs ih => exact (insAscN_perm x (sortAscN xs)).trans (List.Perm.cons x ih)

theorem jsEntries_perm (m : List (List Char × Nat)) :
    List.Perm (jsEntries m) m := by
  unfold jsEntries
  have h1 : List.Perm ((sortAscN (idxEntries m)).map Prod.snd)
      (m.filter (fun kv => (keyIndexVal kv.1).isSome)) := by
    rw [← idxEntries_map_snd]
    exact (sortAscN_perm (idxEntries m)).map Prod.snd
  refine (h1.append_right _).trans ?_
  exact List.filter_append_perm _ m

/-- Claim C6 (amended to string-typed columns only): each of the first
five string-typed columns gets a categorical summary keyed by the
column: the frequency map gives, for every key, exactly the number of
rows whose non-null, non-undefined value coerces to that key (absent
keys have count zero); the top-value list is the frequency map sorted
by descending count - a permutation of it, sorted, and stable in the
sense that the entries of any fixed count keep the `Object.entries`
enumeration order (array-index-like keys first in ascending numeric
order, then the remaining keys in first-occurrence order) - truncated
to five entries, each rendered with percentage
`count / rowCount * 100` to two decimals; and the summary pairs the
column's distinct-value count with that list. -/
theorem summarizer_categorical (rows : List Row) (col : List Char)
    (hcol : col ∈ stringCols5 rows) :
    (∀ key : List Char,
      alookup (valueMapOf rows col) key =
        if rows.countP (catCountP col key) = 0 then none
        else some (rows.countP (catCountP col key)))
    ∧ List.Perm (sortDescByCount (jsEntries (valueMapOf rows col))) (valueMapOf rows col)
    ∧ (sortDescByCount (jsEntries (valueMapOf rows col))).Sorted (fun a b => b.2 ≤ a.2)
    ∧ (∀ n : Nat,
        (sortDescByCount (jsEntries (valueMapOf rows col))).filter
            (fun kc => decide (kc.2 = n))
          = (jsEntries (valueMapOf rows col)).filter (fun kc => decide (kc.2 = n)))
    ∧ topValuesOf rows col
        = ((sortDescByCount (jsEntries (valueMapOf rows col))).take 5).map
            (fun kc => (kc.1, kc.2,
              toFixed2 ((kc.2 : ℚ) / (rows.length : ℚ) * 100) ++ "%".data))
    ∧ alookup (catAnalysisOf rows) col
        = some ((valueMapOf rows col).length, topValuesOf rows col) := by
  refine ⟨?_, (sortDesc_perm _).trans (jsEntries_perm _), sortDesc_sorted _,
    fun n => sortDesc_filter _ n, rfl, ?_⟩
  · intro key
    have h := valueMap_fold_lookup rows col key []
    have ha : alookup ([] : List (List Char × Nat)) key = none := rfl
    rw [ha, Option.getD_none, Nat.zero_add] at h
    unfold valueMapOf
    exact h
  · unfold catAnalysisOf
    exact alookup_map_self (stringCols5 rows) _ col hcol

theorem summarizer_categorical_witness :
    "c".data ∈ stringCols5 rowsCx
    ∧ topValuesOf rowsCx "c".data
        = [("x".data, 2, "66.67%".data), ("y".data, 1, "33.33%".data)]
    ∧ alookup (catAnalysisOf rowsCx) "c".data
        = some ((valueMapOf rowsCx "c".data).length, topValuesOf rowsCx "c".data)
    ∧ (valueMapOf rowsCx "c".data).length = 2 := by
  refine ⟨by decide, ?_,
    (summarizer_categorical rowsCx "c".data (by decide)).2.2.2.2.2, by decide⟩
  have htake : (sortDescByCount (jsEntries (valueMapOf rowsCx "c".data))).take 5
      = [(("x".data : List Char), (2 : Nat)), ("y".data, 1)] := by decide
  have hlen : rowsCx.length = 3 := rfl
  have hf1 : ((((2 : ℕ) : ℚ) / ((3 : ℕ) : ℚ) * 100) * 100 + 1 / 2).floor
      = ((6667 : ℕ) : ℤ) := by
    rw [rat_floor_eq_intFloor, Int.floor_eq_iff]
    push_cast
    constructor <;> norm_num
  have h1 : toFixed2 (((2 : ℕ) : ℚ) / ((3 : ℕ) : ℚ) * 100) = "66.67".data := by
    rw [toFixed2_eval _ 6667 hf1]
    decide
  have hf2 : ((((1 : ℕ) : ℚ) / ((3 : ℕ) : ℚ) * 100) * 100 + 1 / 2).floor
      = ((3333 : ℕ) : ℤ) := by
    rw [rat_floor_eq_intFloor, Int.floor_eq_iff]
    push_cast
    constructor <;> norm_num
  have h2 : toFixed2 (((1 : ℕ) : ℚ) / ((3 : ℕ) : ℚ) * 100) = "33.33".data := by
    rw [toFixed2_eval _ 3333 hf2]
    decide
  unfold topValuesOf
  rw [htake]
  simp only [List.map_cons, List.map_nil]
  rw [hlen, h1, h2]
  decide

/-- Claim C7 is refuted for non-record arrays: `[1,2]` parses to a
non-empty array whose elements are numbers, `Object.keys(1)` is the
empty key list (a primitive coerces to a wrapper object with no own
keys), so the analysis succeeds and the result is not flagged as an
error, although the input is not an array of records. -/
theorem analyze_nonrecord_counterexample :
    isErrFlag (analyzeHandler (some (JsValue.jArr [JsValue.jNum 1, JsValue.jNum 2])) none)
      = some false := rfl

/-- Claim C7 (amended): whenever the parsed value is missing (a JSON
parse failure) or is anything other than a non-empty array - a scalar,
an object, or an empty array - `analyze_results` returns a result
flagged as an error; and on every input whatsoever the handler returns
an ordinary flagged result, never raising anything uncaught.  (A
non-empty array of non-record elements is not rejected: it is analyzed
as if each element were an object.) -/
theorem analyze_bad_input_flagged (parsed : Option JsValue) (focus : Option (List Char))
    (h : ∀ d0 drest, parsed ≠ some (JsValue.jArr (d0 :: drest))) :
    isErrFlag (analyzeHandler parsed focus) = some true
    ∧ ∀ p : Option JsValue, ∀ f : Option (List Char),
        isErrFlag (analyzeHandler p f) ≠ none := by
  constructor
  · cases parsed with
    | none => rfl
    | some v =>
      cases v with
      | jArr xs =>
        cases xs with
        | nil => rfl
        | cons d0 drest => exact absurd rfl (h d0 drest)
      | jNull => rfl
      | jBool b => rfl
      | jNum q => rfl
      | jStr s => rfl
      | jObj fields => rfl
  · intro p f
    cases p with
    | none => exact fun hc => Option.noConfusion hc
    | some v =>
      cases v with
      | jArr xs =>
        cases xs with
        | nil => exact fun hc => Option.noConfusion hc
        | cons d0 drest =>
          intro hc
          have hun : analyzeHandler (some (JsValue.jArr (d0 :: drest))) f
              = match analyzeBody d0 drest f with
                | .ok text => .result false text
                | .error m => .result true ("Error analyzing data: ".data ++ m) := rfl
          rw [hun] at hc
          cases hb : analyzeBody d0 drest f with
          | ok t =>
            rw [hb] at hc
            exact Option.noConfusion hc
          | error m =>
            rw [hb] at hc
            exact Option.noConfusion hc
      | jNull => exact fun hc => Option.noConfusion hc
      | jBool b => exact fun hc => Option.noConfusion hc
      | jNum q => exact fun hc => Option.noConfusion hc
      | jStr s => exact fun hc => Option.noConfusion hc
      | jObj fields => exact fun hc => Option.noConfusion hc

theorem analyze_bad_input_flagged_witness :
    isErrFlag (analyzeHandler (some (JsValue.jArr [])) none) = some true :=
  (analyze_bad_input_flagged (some (JsValue.jArr [])) none
    (fun d0 drest hc => by simp at hc)).1

theorem filter_head_eq_find {α : Type} (p : α → Bool) (l : List α) :
    (l.filter p).head? = l.find? p := by
  induction l with
  | nil => rfl
  | cons a as ih =>
    rw [List.filter_cons]
    by_cases h : p a
    · rw [if_pos h, List.find?_cons_of_pos _ h]
      rfl
    · rw [if_neg h, List.find?_cons_of_neg _ (by simpa using h), ih]

/-- Claim C9: the Chart Spec Builder's axis-column selection agrees
with the spec's rule - category/X is the first string-or-boolean
column if any exist, else the first numeric column, else the first
column by position; value/Y is the first numeric column (the second
numeric column when the first equals X and a second exists), otherwise
the second column by position, or the first when only one column
exists.  `specChooseX`/`specChooseY` are modelled from the claim's
wording, `chooseX`/`chooseY` from the source. -/
theorem viz_column_selection (r : Row) :
    chooseX r = specChooseX r ∧ chooseY r = specChooseY r := by
  have hcat := filter_head_eq_find
    (fun c => decide (typeTag (getProp r c) = TypeTag.tString
      ∨ typeTag (getProp r c) = TypeTag.tBool)) (r.map Prod.fst)
  have hnum := filter_head_eq_find
    (fun c => decide (typeTag (getProp r c) = TypeTag.numeric)) (r.map Prod.fst)
  have hx : chooseX r = specChooseX r := by
    unfold chooseX specChooseX vizCategoricalCols vizNumericCols
    rw [← hcat, ← hnum]
    cases (r.map Prod.fst).filter
        (fun c => decide (typeTag (getProp r c) = TypeTag.tString
          ∨ typeTag (getProp r c) = TypeTag.tBool)) with
    | cons c cs => rfl
    | nil =>
      cases (r.map Prod.fst).filter
          (fun c => decide (typeTag (getProp r c) = TypeTag.numeric)) with
      | cons c cs => rfl
      | nil => rfl
  refine ⟨hx, ?_⟩
  unfold chooseY specChooseY vizNumericCols
  rw [← hnum, ← hx]
  cases (r.map Prod.fst).filter
      (fun c => decide (typeTag (getProp r c) = TypeTag.numeric)) with
  | nil => rfl
  | cons c cs =>
    dsimp only [List.head?]
    by_cases hce : chooseX r = some c
    · rw [if_pos hce, if_pos hce]
      cases cs with
      | nil => rfl
      | cons c2 cs2 => rfl
    · rw [if_neg hce, if_neg hce]

theorem bumpAgg_lookup (m : List (List Char × Option ℚ)) (key k : List Char)
    (d : Option ℚ) :
    alookup (bumpAgg m key d) k =
      if k = key then some (addNaN (orZero (alookup m key)) d) else alookup m k := by
  induction m with
  | nil =>
    simp only [bumpAgg, alookup]
    by_cases h : k = key
    · subst h; simp
    · have h' : ¬ key = k := fun hh => h hh.symm
      simp [h, h']
  | cons p rest ih =>
    obtain ⟨a, v⟩ := p
    by_cases ha : a = key
    · subst ha
      simp only [bumpAgg, if_pos rfl, alookup]
      by_cases h1 : a = k
      · subst h1
        simp
      · have h2 : ¬ k = a := fun hh => h1 hh.symm
        simp [h1, h2]
    · simp only [bumpAgg, if_neg ha, alookup, ih, ha]
      by_cases h1 : a = k
      · have h2 : ¬ k = key := fun hh => ha (h1.trans hh)
        simp [h1, h2, ha]
      · simp [h1, ha]

theorem bumpAgg_lookup_self (m : List (List Char × Option ℚ)) (key : List Char)
    (d : Option ℚ) :
    alookup (bumpAgg m key d) key = some (addNaN (orZero (alookup m key)) d) := by
  rw [bumpAgg_lookup]
  simp

theorem bumpAgg_lookup_ne (m : List (List Char × Option ℚ)) (key k : List Char)
    (d : Option ℚ) (h : k ≠ key) :
    alookup (bumpAgg m key d) k = alookup m k := by
  rw [bumpAgg_lookup, if_neg h]

theorem bumpAgg_keys (m : List (List Char × Option ℚ)) (key : List Char) (d : Option ℚ) :
    (bumpAgg m key d).map Prod.fst =
      if key ∈ m.map Prod.fst then m.map Prod.fst else m.map Prod.fst ++ [key] := by
  induction m with
  | nil => simp [bumpAgg]
  | cons p rest ih =>
    obtain ⟨a, v⟩ := p
    by_cases ha : a = key
    · subst ha
      simp [bumpAgg]
    · simp only [bumpAgg, if_neg ha, List.map_cons, ih]
      by_cases hmem : key ∈ rest.map Prod.fst
      · rw [if_pos hmem, if_pos (by simp [hmem])]
      · have hna : ¬ key ∈ a :: rest.map Prod.fst := by
          intro hc
          rcases List.mem_cons.mp hc with h | h
          · exact ha h.symm
          · exact hmem h
        rw [if_neg hmem, if_neg hna]
        rfl

theorem firstDedup_congr (s1 s2 l : List (List Char))
    (h : ∀ x, x ∈ s1 ↔ x ∈ s2) : firstDedup s1 l = firstDedup s2 l := by
  induction l generalizing s1 s2 with
  | nil => rfl
  | cons k ks ih =>
    simp only [firstDedup]
    by_cases hk : k ∈ s1
    · rw [if_pos hk, if_pos ((h k).mp hk)]
      exact ih s1 s2 h
    · rw [if_neg hk, if_neg (fun hc => hk ((h k).mpr hc))]
      refine congrArg (k :: ·) (ih (k :: s1) (k :: s2) ?_)
      intro x
      simp only [List.mem_cons]
      exact or_congr Iff.rfl (h x)

theorem pieAgg_fold_keys (keyOf : Row → List Char) (delta : Row → Option ℚ)
    (rows : List Row) (m : List (List Char × Option ℚ)) :
    (rows.foldl (fun m r => bumpAgg m (keyOf r) (delta r)) m).map Prod.fst
      = m.map Prod.fst ++ firstDedup (m.map Prod.fst) (rows.map keyOf) := by
  induction rows generalizing m with
  | nil => simp [firstDedup]
  | cons r rest ih =>
    rw [List.foldl_cons, ih, bumpAgg_keys, List.map_cons]
    by_cases hmem : keyOf r ∈ m.map Prod.fst
    · rw [if_pos hmem]
      simp only [firstDedup, if_pos hmem]
    · rw [if_neg hmem]
      simp only [firstDedup, if_neg hmem]
      rw [List.append_assoc, List.singleton_append]
      refine congrArg (m.map Prod.fst ++ ·) (congrArg (keyOf r :: ·) ?_)
      refine firstDedup_congr _ _ _ ?_
      intro x
      simp only [List.mem_append, List.mem_cons, List.not_mem_nil, or_false]
      exact or_comm

theorem pieAgg_fold_lookup (keyOf : Row → List Char) (delta : Row → Option ℚ)
    (rows : List Row) (m : List (List Char × Option ℚ)) (key : List Char) :
    alookup (rows.foldl (fun m r => bumpAgg m (keyOf r) (delta r)) m) key
      = rows.foldl (pieAccStep keyOf delta key) (alookup m key) := by
  induction rows generalizing m with
  | nil => rfl
  | cons r rest ih =>
    have hinit : alookup (bumpAgg m (keyOf r) (delta r)) key
        = pieAccStep keyOf delta key (alookup m key) r := by
      unfold pieAccStep
      by_cases hk : keyOf r = key
      · rw [if_pos hk, ← hk, bumpAgg_lookup_self]
      · rw [if_neg hk, bumpAgg_lookup_ne _ _ _ _ (fun hh => hk hh.symm)]
    rw [List.foldl_cons, List.foldl_cons, ih, hinit]

theorem accFold_some (keyOf : Row → List Char) (delta : Row → Option ℚ)
    (key : List Char) (rows : List Row) (q : ℚ)
    (hclean : ∀ r ∈ rows, (delta r).isSome = true) :
    rows.foldl (pieAccStep keyOf delta key) (some (some q))
      = some (some (q + sumOverKey keyOf delta key rows)) := by
  induction rows generalizing q with
  | nil => simp [sumOverKey]
  | cons r rest ih =>
    rw [List.foldl_cons]
    have hrest : ∀ r ∈ rest, (delta r).isSome = true :=
      fun r hr => hclean r (List.mem_cons_of_mem _ hr)
    by_cases hk : keyOf r = key
    · obtain ⟨d, hd⟩ := Option.isSome_iff_exists.mp (hclean r (List.mem_cons_self r rest))
      rw [show pieAccStep keyOf delta key (some (some q)) r = some (some (q + d)) by
        unfold pieAccStep
        rw [if_pos hk, hd]
        rfl]
      rw [ih (q + d) hrest]
      refine congrArg (fun z : ℚ => some (some z)) ?_
      unfold sumOverKey
      rw [List.filter_cons, if_pos (decide_eq_true hk), List.map_cons, List.sum_cons, hd]
      simp only [Option.getD_some]
      rw [add_assoc]
    · rw [show pieAccStep keyOf delta key (some (some q)) r = some (some q) by
        unfold pieAccStep
        rw [if_neg hk]]
      rw [ih q hrest]
      refine congrArg (fun z : ℚ => some (some z)) ?_
      unfold sumOverKey
      rw [List.filter_cons,
        if_neg (fun hc : decide (keyOf r = key) = true => hk (of_decide_eq_true hc))]

theorem accFold_none (keyOf : Row → List Char) (delta : Row → Option ℚ)
    (key : List Char) (rows : List Row)
    (hclean : ∀ r ∈ rows, (delta r).isSome = true) :
    rows.foldl (pieAccStep keyOf delta key) none
      = if rows.countP (fun r => decide (keyOf r = key)) = 0 then none
        else some (some (sumOverKey keyOf delta key rows)) := by
  induction rows with
  | nil => rfl
  | cons r rest ih =>
    rw [List.foldl_cons, List.countP_cons]
    have hrest : ∀ r ∈ rest, (delta r).isSome = true :=
      fun r hr => hclean r (List.mem_cons_of_mem _ hr)
    by_cases hk : keyOf r = key
    · obtain ⟨d, hd⟩ := Option.isSome_iff_exists.mp (hclean r (List.mem_cons_self r rest))
      rw [show pieAccStep keyOf delta key none r = some (some (0 + d)) by
        unfold pieAccStep
        rw [if_pos hk, hd]
        rfl]
      rw [accFold_some keyOf delta key rest (0 + d) hrest]
      rw [decide_eq_true hk]
      have ho : (if (true = true) then 1 else 0) = 1 := rfl
      rw [ho]
      have h1 : ¬ (rest.countP (fun r => decide (keyOf r = key)) + 1 = 0) :=
        Nat.succ_ne_zero _
      rw [if_neg h1]
      refine congrArg (fun z : ℚ => some (some z)) ?_
      unfold sumOverKey
      rw [List.filter_cons, if_pos (decide_eq_true hk), List.map_cons, List.sum_cons, hd]
      simp only [Option.getD_some]
      rw [zero_add]
    · rw [show pieAccStep keyOf delta key none r = none by
        unfold pieAccStep
        rw [if_neg hk]]
      rw [ih hrest]
      have hz : decide (keyOf r = key) = false := decide_eq_false hk
      rw [hz]
      have ho : (if (false = true) then 1 else 0) = 0 := rfl
      rw [ho, Nat.add_zero]
      by_cases h0 : rest.countP (fun r => decide (keyOf r = key)) = 0
      · rw [if_pos h0, if_pos h0]
      · rw [if_neg h0, if_neg h0]
        refine congrArg (fun z : ℚ => some (some z)) ?_
        unfold sumOverKey
        rw [List.filter_cons, if_neg (fun hc : decide (keyOf r = key) = true =>
          hk (of_decide_eq_true hc))]

theorem sumOverKey_ones (keyOf : Row → List Char) (key : List Char) (rows : List Row) :
    sumOverKey keyOf (fun _ => some 1) key rows
      = ((rows.countP (fun r => decide (keyOf r = key)) : ℕ) : ℚ) := by
  unfold sumOverKey
  rw [List.countP_eq_length_filter]
  induction rows.filter (fun r => decide (keyOf r = key)) with
  | nil => simp
  | cons a l ih =>
    rw [List.map_cons, List.sum_cons, ih, List.length_cons]
    push_cast
    simp [Option.getD]
    ring

/-- Claim C8: for every nonempty row array rendered as a pie chart,
the emitted chart data has exactly one slice per distinct category key
of the selected X column, in first-occurrence order; when a numeric
column exists and every selected Y value coerces to a defined number,
the slice value of each occurring key is the sum of `Number(row[y])`
over the rows with that key; when no numeric column exists, it is the
number of rows with that key.  In particular the example rows
aggregate to slices a:3 and b:5 (see the witness). -/
theorem pie_aggregation (r0 : Row) (rows : List Row)
    (hclean : ∀ r ∈ r0 :: rows, (vizNumericCols r0).isEmpty = false →
      (jsNumber (getPropOpt r (chooseY r0))).isSome = true) :
    (pieChartData r0 rows).map Prod.fst
      = firstDedup [] ((r0 :: rows).map (fun r => jsKeyOf (getPropOpt r (chooseX r0))))
    ∧ ((vizNumericCols r0).isEmpty = false → ∀ key : List Char,
        alookup (pieChartData r0 rows) key
          = if (r0 :: rows).countP
                (fun r => decide (jsKeyOf (getPropOpt r (chooseX r0)) = key)) = 0
            then none
            else some (some (sumOverKey
                (fun r => jsKeyOf (getPropOpt r (chooseX r0)))
                (fun r => jsNumber (getPropOpt r (chooseY r0))) key (r0 :: rows))))
    ∧ ((vizNumericCols r0).isEmpty = true → ∀ key : List Char,
        alookup (pieChartData r0 rows) key
          = if (r0 :: rows).countP
                (fun r => decide (jsKeyOf (getPropOpt r (chooseX r0)) = key)) = 0
            then none
            else some (some (((r0 :: rows).countP
                (fun r => decide (jsKeyOf (getPropOpt r (chooseX r0)) = key)) : ℚ)))) := by
  refine ⟨?_, ?_, ?_⟩
  · have hkeys := pieAgg_fold_keys (fun r => jsKeyOf (getPropOpt r (chooseX r0)))
      (fun r => if (!(vizNumericCols r0).isEmpty) = true
        then jsNumber (getPropOpt r (chooseY r0)) else some 1) (r0 :: rows) []
    rw [List.map_nil, List.nil_append] at hkeys
    exact hkeys
  · intro hb key
    have hcl : ∀ r ∈ r0 :: rows, (jsNumber (getPropOpt r (chooseY r0))).isSome = true :=
      fun r hr => hclean r hr hb
    have hpc : pieChartData r0 rows
        = (r0 :: rows).foldl
            (fun m r => bumpAgg m (jsKeyOf (getPropOpt r (chooseX r0)))
              (jsNumber (getPropOpt r (chooseY r0)))) [] := by
      unfold pieChartData pieAgg
      simp only [hb, Bool.not_false]
      rfl
    have hlook := pieAgg_fold_lookup (fun r => jsKeyOf (getPropOpt r (chooseX r0)))
      (fun r => jsNumber (getPropOpt r (chooseY r0))) (r0 :: rows) [] key
    have hacc := accFold_none (fun r => jsKeyOf (getPropOpt r (chooseX r0)))
      (fun r => jsNumber (getPropOpt r (chooseY r0))) key (r0 :: rows) hcl
    have h0 : alookup ([] : List (List Char × Option ℚ)) key = none := rfl
    rw [hpc, hlook, h0]
    exact hacc
  · intro hb key
    have hcl : ∀ r ∈ r0 :: rows, ((some (1 : ℚ)).isSome = true) := fun r hr => rfl
    have hpc : pieChartData r0 rows
        = (r0 :: rows).foldl
            (fun m r => bumpAgg m (jsKeyOf (getPropOpt r (chooseX r0)))
              (some (1 : ℚ))) [] := by
      unfold pieChartData pieAgg
      simp only [hb, Bool.not_true]
      rfl
    have hlook := pieAgg_fold_lookup (fun r => jsKeyOf (getPropOpt r (chooseX r0)))
      (fun _ => some (1 : ℚ)) (r0 :: rows) [] key
    have hacc := accFold_none (fun r => jsKeyOf (getPropOpt r (chooseX r0)))
      (fun _ => some (1 : ℚ)) key (r0 :: rows) hcl
    rw [sumOverKey_ones] at hacc
    have h0 : alookup ([] : List (List Char × Option ℚ)) key = none := rfl
    rw [hpc, hlook, h0]
    exact hacc

theorem pie_aggregation_witness :
    (pieChartData rowPie0 rowsPieRest).map Prod.fst = ["a".data, "b".data]
    ∧ alookup (pieChartData rowPie0 rowsPieRest) "a".data = some (some 3)
    ∧ alookup (pieChartData rowPie0 rowsPieRest) "b".data = some (some 5) := by
  have hcl : ∀ r ∈ rowPie0 :: rowsPieRest, (vizNumericCols rowPie0).isEmpty = false →
      (jsNumber (getPropOpt r (chooseY rowPie0))).isSome = true := by decide
  refine ⟨(pie_aggregation rowPie0 rowsPieRest hcl).1.trans (by decide), ?_, ?_⟩
  · have h2 := (pie_aggregation rowPie0 rowsPieRest hcl).2.1 (by decide) "a".data
    refine h2.trans ?_
    rw [show (rowPie0 :: rowsPieRest).countP
        (fun r => decide (jsKeyOf (getPropOpt r (chooseX rowPie0)) = "a".data)) = 2
      from by decide]
    rw [if_neg (by decide : ¬ (2 : ℕ) = 0)]
    refine congrArg (fun q : ℚ => some (some q)) ?_
    unfold sumOverKey
    rw [show ((rowPie0 :: rowsPieRest).filter
        (fun r => decide (jsKeyOf (getPropOpt r (chooseX rowPie0)) = "a".data)))
        = [rowPie0, [("k".data, Value.vStr "a".data), ("v".data, Value.vNum 2)]]
      from by decide]
    rw [show (([rowPie0, [("k".data, Value.vStr "a".data), ("v".data, Value.vNum 2)]]).map
        (fun r => (jsNumber (getPropOpt r (chooseY rowPie0))).getD 0))
        = [(1 : ℚ), 2] from rfl]
    norm_num [List.sum_cons, List.sum_nil]
  · have h2 := (pie_aggregation rowPie0 rowsPieRest hcl).2.1 (by decide) "b".data
    refine h2.trans ?_
    rw [show (rowPie0 :: rowsPieRest).countP
        (fun r => decide (jsKeyOf (getPropOpt r (chooseX rowPie0)) = "b".data)) = 1
      from by decide]
    rw [if_neg (by decide : ¬ (1 : ℕ) = 0)]
    refine congrArg (fun q : ℚ => some (some q)) ?_
    unfold sumOverKey
    rw [show ((rowPie0 :: rowsPieRest).filter
        (fun r => decide (jsKeyOf (getPropOpt r (chooseX rowPie0)) = "b".data)))
        = [[("k".data, Value.vStr "b".data), ("v".data, Value.vNum 5)]]
      from by decide]
    rw [show (([[("k".data, Value.vStr "b".data), ("v".data, Value.vNum 5)]]).map
        (fun r => (jsNumber (getPropOpt r (chooseY rowPie0))).getD 0))
        = [(5 : ℚ)] from rfl]
    norm_num [List.sum_cons, List.sum_nil]
